import Mathlib

/-!
Verification of the bailey language toolchain: a shallow embedding of the
let-normalizer (`src/ir_let/compiler.rs`), the free-variable analysis
(`src/ir_let/free_vars.rs`), the reference-counted heap (`src/heap.rs`),
the call/block stack (`src/stack.rs`) and the iterative interpreter
(`src/ir_let/interpreter/simple_eval.rs`).

Conventions of the embedding:
* Rust `i32` values are modelled as `Int` together with explicit range
  checks; arithmetic uses the default (overflow-checked) profile, so an
  `i32` addition or a `u32` refcount decrement that overflows aborts with
  a diagnostic, exactly like the `panic!` of a checked build.
* `HashMap`/`HashSet` are modelled as association lists with
  lookup-by-first-match and replace-on-insert; iteration order is the
  insertion order (all observable results proved here are independent of
  the iteration order the Rust hash containers would use).
* Rust `Vec` stacks (`Stack.frames`, `CallStackFrame.nested_block_frames`)
  are represented head-innermost, so `push` is `cons`; a `BlockFrame`'s
  `values` vector keeps the push order because `variable_offsets` indexes
  into it.
* `panic!`/`expect` aborts are modelled by `Except.error` with the panic
  message; the per-call fuel of the recursive `dec_refcount`/`free`
  cascade is `memory.length + 1`, which bounds the nesting depth because
  every nested `free` removes one cell.
-/

namespace Bailey

/-! ## Constants and binary operators (`src/lang/syntax.rs`) -/

/-- The two's-complement range of a Rust `i32`. -/
def i32InRange (x : Int) : Prop := -2147483648 ≤ x ∧ x ≤ 2147483647

instance (x : Int) : Decidable (i32InRange x) := by
  unfold i32InRange; infer_instance

inductive Constant where
  | int (value : Int)
  | bool (value : Bool)
  deriving DecidableEq

inductive BinOp where
  | add
  | sub
  | eq
  | get
  deriving DecidableEq

/-- Source expressions, the input of the let-normalizer
(`lang::syntax::Expr` as consumed by `compiler.rs` and built by
`fib.rs`). -/
inductive Expr where
  | literal (c : Constant)
  | var (var_name : String)
  | fun_ (name : String) (arg_names : List String) (body : Expr)
  | call (func : Expr) (args : List Expr)
  | binop (op : BinOp) (lhs : Expr) (rhs : Expr)
  | let_ (name : String) (definition : Expr) (body : Expr)
  | if_ (condition : Expr) (branch_success : Expr) (branch_failure : Expr)
  | tuple (values : List Expr)
  | set (tuple : Expr) (index : Nat) (new_expr : Expr)

/-! ## The flat IR (`src/ir_let/let_expr.rs`) -/

structure VariableReference where
  var_name : String
  deriving DecidableEq

structure TargetAddress where
  function_index : Nat
  block_index : Nat
  instruction_index : Nat
  deriving DecidableEq

def TargetAddress.next (a : TargetAddress) : TargetAddress :=
  { function_index := a.function_index
    block_index := a.block_index
    instruction_index := a.instruction_index + 1 }

/-- Closure-allocation payload (`AllocClosure` in `let_expr.rs`; the
interpreter source refers to the same record as `Function`). -/
structure AllocClosure where
  name : String
  arg_names : List String
  free_names : List String
  body : TargetAddress
  deriving DecidableEq

inductive Simple where
  | literal (c : Constant)
  | fun_ (f : AllocClosure)
  | binop (op : BinOp) (lhs : VariableReference) (rhs : VariableReference)
  | tuple (args : List VariableReference)
  | set (tuple : VariableReference) (index : Nat) (new_value : VariableReference)
  deriving DecidableEq

inductive Control where
  | call (func : VariableReference) (args : List VariableReference)
  | if_ (condition : VariableReference) (branch_success : TargetAddress)
        (branch_failure : TargetAddress)
  deriving DecidableEq

inductive Step where
  | simple (s : Simple)
  | control (c : Control)
  deriving DecidableEq

inductive Definition where
  | var (v : VariableReference)
  | step (s : Step)
  deriving DecidableEq

structure Assignment where
  name : String
  definition : Definition
  deriving DecidableEq

inductive Instruction where
  | enterBlock
  | exitBlock (v : VariableReference)
  | assignment (a : Assignment)
  deriving DecidableEq

structure Block where
  instructions : List Instruction
  parent_block_index : Option Nat
  deriving DecidableEq

/-- Functions of the flat program; `free_names` is `None` until the
normalizer finishes the function body and commits the computed set. -/
structure Function where
  name : String
  arg_names : List String
  free_names : Option (List String)
  blocks : List Block
  deriving DecidableEq

structure Program where
  functions : List Function
  deriving DecidableEq

/-! ## Association-list maps (model of `HashMap`) -/

/-- `HashMap` lookup. -/
def mapLookup (m : List (String × α)) (k : String) : Option α :=
  match m with
  | [] => none
  | (k', v) :: rest => if k' = k then some v else mapLookup rest k

/-- `HashMap::remove`. -/
def mapRemove (m : List (String × α)) (k : String) : List (String × α) :=
  match m with
  | [] => []
  | (k', v) :: rest => if k' = k then mapRemove rest k else (k', v) :: mapRemove rest k

/-- `HashMap::insert` (replace an existing binding). -/
def mapInsert (m : List (String × α)) (k : String) (v : α) : List (String × α) :=
  (k, v) :: mapRemove m k

/-! ## Free-variable analysis (`src/ir_let/free_vars.rs`)

The `HashSet` of collected names is modelled as a duplicate-free list in
insertion order.  The recursion of `collect_block` through `If` branch
targets is given fuel (one unit per visited block); the normalizer always
calls the analysis with fuel `blocks.length`, which suffices for the
programs it builds because branch targets are freshly pushed blocks of
strictly larger index. -/

def fvInsert (s : List String) (x : String) : List String :=
  if x ∈ s then s else s ++ [x]

def fvRemove (s : List String) (x : String) : List String :=
  s.filter (fun y => y ≠ x)

def collectVar (s : List String) (v : VariableReference) : List String :=
  fvInsert s v.var_name

def collectSimple (s : List String) (e : Simple) : List String :=
  match e with
  | .literal _ => s
  | .tuple args => args.foldl collectVar s
  | .set tuple _ new_value => collectVar (collectVar s tuple) new_value
  | .binop _ lhs rhs => collectVar (collectVar s lhs) rhs
  | .fun_ f => f.free_names.foldl fvInsert s

/-- `FreeVars::collect_control`, parameterized by the recursive descent
into `If` branch blocks. -/
def collectControlF (recur : List String → Nat → List String)
    (s : List String) : Control → List String
  | .call func args => args.foldl collectVar (collectVar s func)
  | .if_ condition branch_success branch_failure =>
    recur (recur (collectVar s condition) branch_success.block_index)
      branch_failure.block_index

/-- `FreeVars::collect_definition`, parameterized like `collectControlF`. -/
def collectDefinitionF (recur : List String → Nat → List String)
    (s : List String) : Definition → List String
  | .var v => collectVar s v
  | .step (.simple e) => collectSimple s e
  | .step (.control c) => collectControlF recur s c

/-- One instruction of the reverse walk of `FreeVars::collect_block`:
`ExitBlock(n)` adds `n`; `Assignment(name, def)` first subtracts `name`
and then adds the variables referenced by `def`. -/
def collectInstrF (recur : List String → Nat → List String)
    (s : List String) : Instruction → List String
  | .enterBlock => s
  | .exitBlock return_var => collectVar s return_var
  | .assignment a => collectDefinitionF recur (fvRemove s a.name) a.definition

/-- `FreeVars::collect_block` (instructions walked in reverse; fuel counts
the nesting depth of visited blocks). -/
def collectBlock (blocks : List Block) : Nat → List String → Nat → List String
  | 0, s, _ => s
  | fuel + 1, s, block_index =>
    match blocks.get? block_index with
    | none => s
    | some block =>
      block.instructions.reverse.foldl
        (collectInstrF (collectBlock blocks fuel)) s

/-- `FreeVars::free_vars_function`: run the collector from the entry block,
then subtract the function's own name and its parameters. -/
def freeVarsFunction (blocks : List Block) (funname : String)
    (argnames : List String) (initial_block_index : Nat) : List String :=
  argnames.foldl fvRemove
    (fvRemove (collectBlock blocks blocks.length [] initial_block_index) funname)

/-! ## The let-normalizer (`src/ir_let/compiler.rs`) -/

structure NormState where
  program : Program
  current_function_index : Option Nat
  current_block_index : Option Nat
  var_counter : Nat
  var_substitution : List (String × String)

def initialNormState : NormState :=
  { program := { functions := [] }
    current_function_index := none
    current_block_index := none
    var_counter := 0
    var_substitution := [] }

/-- `LetNormalizer::fresh`. -/
def freshName (base_name : String) (s : NormState) : String × NormState :=
  (base_name ++ "__" ++ toString s.var_counter,
   { s with var_counter := s.var_counter + 1 })

/-- Replace the function at `i` (no-op when out of range, which never
happens on the paths the normalizer takes). -/
def setFunction (p : Program) (i : Nat) (f : Function) : Program :=
  { functions := p.functions.set i f }

def getFunction? (p : Program) (i : Nat) : Option Function :=
  p.functions.get? i

/-- `LetNormalizer::emit`: push an instruction onto the current block of
the current function. -/
def emit (instr : Instruction) (s : NormState) : Except String NormState :=
  match s.current_function_index with
  | none => .error "should have active function"
  | some fi =>
    match s.current_block_index with
    | none => .error "should have active block"
    | some bi =>
      match s.program.functions.get? fi with
      | none => .error "should have active function"
      | some f =>
        match f.blocks.get? bi with
        | none => .error "should have active block"
        | some b =>
          let b' := { b with instructions := b.instructions ++ [instr] }
          let f' := { f with blocks := f.blocks.set bi b' }
          .ok { s with program := setFunction s.program fi f' }

/-- The save part of `with_substitution`: remember the previous binding of
`from_`, then substitute it by `to`. -/
def substSaveInsert (from_ to_ : String) (s : NormState) :
    Option String × NormState :=
  let old := mapLookup s.var_substitution from_
  (old, { s with var_substitution := mapInsert s.var_substitution from_ to_ })

/-- The restore part of `with_substitution`. -/
def substRestore (from_ : String) (old : Option String) (s : NormState) :
    NormState :=
  match old with
  | some old_to =>
    { s with var_substitution := mapInsert s.var_substitution from_ old_to }
  | none =>
    { s with var_substitution := mapRemove s.var_substitution from_ }

/-- Saves-and-inserts for `with_substitutions` nesting: the Rust code pops
the last element of the reversed substitution vector first, so the pairs
are processed in the order of this list; saves are returned in that order
and must be restored in the reverse order. -/
def substSaveInsertAll (subs : List (String × String)) (s : NormState) :
    List (String × Option String) × NormState :=
  match subs with
  | [] => ([], s)
  | (from_, to_) :: rest =>
    let (old, s1) := substSaveInsert from_ to_ s
    let (saves, s2) := substSaveInsertAll rest s1
    ((from_, old) :: saves, s2)

def substRestoreAll (saves : List (String × Option String)) (s : NormState) :
    NormState :=
  match saves with
  | [] => s
  | (from_, old) :: rest => substRestore from_ old (substRestoreAll rest s)

/-- Fresh-rename the parameter list.  The Rust loop walks
`original_arg_names.iter().rev()`, drawing fresh counters for the last
parameter first, and reverses the result back; the substitution pairs end
up being applied in original parameter order. -/
def freshArgs (original_arg_names : List String) (s : NormState) :
    (List (String × String) × List String) × NormState :=
  let rec go (rev_names : List String) (s : NormState) :
      (List (String × String) × List String) × NormState :=
    match rev_names with
    | [] => (([], []), s)
    | original :: rest =>
      let (unique, s1) := freshName original s
      let ((subs, uniques), s2) := go rest s1
      (((original, unique) :: subs, unique :: uniques), s2)
  let ((subs_rev, uniques_rev), s') := go original_arg_names.reverse s
  ((subs_rev.reverse, uniques_rev.reverse), s')

/-- The fresh-name-and-emit post-processing of `LetNormalizer::normalize_var`
(a step becomes `__gen_k = step`, an atom passes through). -/
def normalizeVarAux (r : Except String (Definition × NormState)) :
    Except String (VariableReference × NormState) :=
  match r with
  | .error msg => .error msg
  | .ok (norm_rhs, s1) =>
    match norm_rhs with
    | .var expr_at => .ok (expr_at, s1)
    | .step step =>
      let (var_name, s2) := freshName "__gen" s1
      match emit (.assignment { name := var_name, definition := .step step }) s2 with
      | .error msg => .error msg
      | .ok s3 => .ok ({ var_name := var_name }, s3)

/-- The entry half of `LetNormalizer::normalize_block`: push a fresh block
whose parent is the current block, make it current, emit `EnterBlock`.
Returns `(current function index, new block index, saved block index)`. -/
def blockPre (s : NormState) :
    Except String ((Nat × Nat × Option Nat) × NormState) :=
  match s.current_function_index with
  | none => .error "should have active function"
  | some current_function_index =>
    match s.program.functions.get? current_function_index with
    | none => .error "should have active function"
    | some f =>
      let new_block_index := f.blocks.length
      let f1 := { f with blocks := f.blocks ++
        [{ instructions := [], parent_block_index := s.current_block_index }] }
      let old_block_index := s.current_block_index
      let s1 :=
        { s with
          program := setFunction s.program current_function_index f1
          current_block_index := some new_block_index }
      match emit .enterBlock s1 with
      | .error msg => .error msg
      | .ok s2 => .ok ((current_function_index, new_block_index, old_block_index), s2)

/-- The exit half of `LetNormalizer::normalize_block`: emit
`ExitBlock(result)`, restore the saved block index, return the address of
the block's `EnterBlock`. -/
def blockPost (fi nbi : Nat) (obi : Option Nat)
    (r : Except String (VariableReference × NormState)) :
    Except String (TargetAddress × NormState) :=
  match r with
  | .error msg => .error msg
  | .ok (result, s3) =>
    match emit (.exitBlock result) s3 with
    | .error msg => .error msg
    | .ok s4 =>
      .ok ({ function_index := fi, block_index := nbi, instruction_index := 0 },
           { s4 with current_block_index := obi })

/-- The entry half of `LetNormalizer::normalize_function_body`: push a new
function with `free_names = None`, make it current, clear the block
cursor.  Returns `(new function index, saved function index, saved block
index)`. -/
def funBodyPre (name : String) (arg_names : List String) (s : NormState) :
    (Nat × Option Nat × Option Nat) × NormState :=
  let old_function_index := s.current_function_index
  let new_function_index := s.program.functions.length
  let s1 : NormState :=
    { s with
      program :=
        { functions := s.program.functions ++
            [{ name := name, arg_names := arg_names, free_names := none,
               blocks := [] }] }
      current_function_index := some new_function_index
      current_block_index := none }
  ((new_function_index, old_function_index, s.current_block_index), s1)

/-- The exit half of `LetNormalizer::normalize_function_body`: run the
free-variable analysis over the finished blocks, commit the result to the
function and to the returned closure-allocation record, restore the saved
cursors. -/
def funBodyPost (name : String) (arg_names : List String)
    (new_function_index : Nat) (old_function_index old_block_index : Option Nat)
    (r : Except String (TargetAddress × NormState)) :
    Except String (AllocClosure × NormState) :=
  match r with
  | .error msg => .error msg
  | .ok (body_address, s2) =>
    match getFunction? s2.program new_function_index with
    | none => .error "should have active function"
    | some f =>
      let freevars := freeVarsFunction f.blocks name arg_names
        body_address.block_index
      let s3 :=
        { s2 with
          program := setFunction s2.program new_function_index
            { f with free_names := some freevars } }
      let function : AllocClosure :=
        { name := name, arg_names := arg_names, free_names := freevars,
          body := body_address }
      .ok (function,
        { s3 with
          current_function_index := old_function_index
          current_block_index := old_block_index })

mutual

/-- `LetNormalizer::normalize_rhs`.  The `Fun` and `If` cases inline
`normalize_function_body` / `normalize_block` as their pre/post halves
around the recursive descent (structural recursion over the expression,
exactly as the Rust call graph). -/
def normalizeRhs (e : Expr) (s : NormState) :
    Except String (Definition × NormState) :=
  match e with
  | .literal c => .ok (.step (.simple (.literal c)), s)
  | .var var_name =>
    match mapLookup s.var_substitution var_name with
    | none => .error "could not find substitution"
    | some subst => .ok (.var { var_name := subst }, s)
  | .fun_ original_name original_arg_names body =>
    let (unique_name, s1) := freshName original_name s
    let ((arg_substitutions, unique_arg_names), s2) :=
      freshArgs original_arg_names s1
    let (saves, s3) := substSaveInsertAll
      (arg_substitutions ++ [(original_name, unique_name)]) s2
    let ((new_fi, old_fi, old_bi), s4) :=
      funBodyPre unique_name unique_arg_names s3
    match blockPre s4 with
    | .error msg => .error msg
    | .ok ((bfi, nbi, obi), s5) =>
      match funBodyPost unique_name unique_arg_names new_fi old_fi old_bi
          (blockPost bfi nbi obi (normalizeVarAux (normalizeRhs body s5))) with
      | .error msg => .error msg
      | .ok (function, s6) =>
        .ok (.step (.simple (.fun_ function)), substRestoreAll saves s6)
  | .call func args =>
    match normalizeVarAux (normalizeRhs func s) with
    | .error msg => .error msg
    | .ok (fun_at, s1) =>
      match normalizeVarList args s1 with
      | .error msg => .error msg
      | .ok (args_at, s2) =>
        .ok (.step (.control (.call fun_at args_at)), s2)
  | .binop op lhs rhs =>
    match normalizeVarAux (normalizeRhs lhs s) with
    | .error msg => .error msg
    | .ok (lhs_at, s1) =>
      match normalizeVarAux (normalizeRhs rhs s1) with
      | .error msg => .error msg
      | .ok (rhs_at, s2) =>
        .ok (.step (.simple (.binop op lhs_at rhs_at)), s2)
  | .let_ original_name definition body =>
    match normalizeRhs definition s with
    | .error msg => .error msg
    | .ok (def_c, s1) =>
      let (unique_name, s2) := freshName original_name s1
      match emit (.assignment { name := unique_name, definition := def_c }) s2 with
      | .error msg => .error msg
      | .ok s3 =>
        let (old, s4) := substSaveInsert original_name unique_name s3
        match normalizeRhs body s4 with
        | .error msg => .error msg
        | .ok (result, s5) => .ok (result, substRestore original_name old s5)
  | .if_ condition branch_success branch_failure =>
    match normalizeVarAux (normalizeRhs condition s) with
    | .error msg => .error msg
    | .ok (cond_at, s1) =>
      match blockPre s1 with
      | .error msg => .error msg
      | .ok ((fi1, nbi1, obi1), sB) =>
        match blockPost fi1 nbi1 obi1
            (normalizeVarAux (normalizeRhs branch_success sB)) with
        | .error msg => .error msg
        | .ok (success_addr, s2) =>
          match blockPre s2 with
          | .error msg => .error msg
          | .ok ((fi2, nbi2, obi2), sC) =>
            match blockPost fi2 nbi2 obi2
                (normalizeVarAux (normalizeRhs branch_failure sC)) with
            | .error msg => .error msg
            | .ok (failure_addr, s3) =>
              .ok (.step (.control (.if_ cond_at success_addr failure_addr)), s3)
  | .tuple values =>
    match normalizeVarList values s with
    | .error msg => .error msg
    | .ok (args_norm, s1) => .ok (.step (.simple (.tuple args_norm)), s1)
  | .set tuple index new_expr =>
    match normalizeVarAux (normalizeRhs tuple s) with
    | .error msg => .error msg
    | .ok (tuple_at, s1) =>
      match normalizeVarAux (normalizeRhs new_expr s1) with
      | .error msg => .error msg
      | .ok (new_at, s2) =>
        .ok (.step (.simple (.set tuple_at index new_at)), s2)
termination_by structural e

/-- Left-to-right normalization of an argument list (the `for` loops of
the `Call` and `Tuple` cases). -/
def normalizeVarList (es : List Expr) (s : NormState) :
    Except String (List VariableReference × NormState) :=
  match es with
  | [] => .ok ([], s)
  | e :: rest =>
    match normalizeVarAux (normalizeRhs e s) with
    | .error msg => .error msg
    | .ok (v, s1) =>
      match normalizeVarList rest s1 with
      | .error msg => .error msg
      | .ok (vs, s2) => .ok (v :: vs, s2)
termination_by structural es

end

/-- `LetNormalizer::normalize_var`. -/
def normalizeVar (e : Expr) (s : NormState) :
    Except String (VariableReference × NormState) :=
  normalizeVarAux (normalizeRhs e s)

/-- `LetNormalizer::normalize_block`. -/
def normalizeBlock (e : Expr) (s : NormState) :
    Except String (TargetAddress × NormState) :=
  match blockPre s with
  | .error msg => .error msg
  | .ok ((fi, nbi, obi), s1) => blockPost fi nbi obi (normalizeVar e s1)

/-- `LetNormalizer::normalize_function_body`. -/
def normalizeFunctionBody (name : String) (arg_names : List String) (e : Expr)
    (s : NormState) : Except String (AllocClosure × NormState) :=
  let ((new_fi, old_fi, old_bi), s1) := funBodyPre name arg_names s
  funBodyPost name arg_names new_fi old_fi old_bi (normalizeBlock e s1)

/-- `let_normalize` / `LetNormalizer::normalize_program`: the program is a
distinguished `toplevel` function with no parameters. -/
def letNormalize (e : Expr) : Except String Program :=
  match normalizeFunctionBody "toplevel" [] e initialNormState with
  | .error msg => .error msg
  | .ok (_, s) => .ok s.program

/-! ## Heap values (`src/heap_value.rs`) -/

/-- Heap addresses (`HeapAddress(u32)`, monotonically increasing, never
reused within a run). -/
abbrev HeapAddress := Nat

structure Closure where
  name : String
  arg_names : List String
  environment : List (String × HeapAddress)
  body : TargetAddress
  deriving DecidableEq

structure Tuple where
  field_values : List HeapAddress
  deriving DecidableEq

inductive HeapValue where
  | int (value : Int)
  | bool (value : Bool)
  | tuple (t : Tuple)
  | closure (c : Closure)
  deriving DecidableEq

/-- `HeapValue::check_int` (panics on a non-integer). -/
def HeapValue.check_int : HeapValue → Except String Int
  | .int value => .ok value
  | _ => .error "expected int"

def HeapValue.check_bool : HeapValue → Except String Bool
  | .bool value => .ok value
  | _ => .error "expected bool"

def HeapValue.check_tuple : HeapValue → Except String Tuple
  | .tuple t => .ok t
  | _ => .error "expected tuple"

def HeapValue.check_closure : HeapValue → Except String Closure
  | .closure c => .ok c
  | _ => .error "expected closure"

/-- A heap cell; `refcount` is a Rust `u32`, modelled as `Nat` whose
decrement at zero aborts exactly like checked `u32` subtraction. -/
structure RefCountedHeapValue where
  refcount : Nat
  heap_value : HeapValue
  deriving DecidableEq

/-! ## Heap (`src/heap.rs`) -/

/-- `HashMap<HeapAddress, RefCountedHeapValue>` as an association list with
distinct keys (alloc only ever inserts fresh addresses). -/
def memLookup (m : List (HeapAddress × RefCountedHeapValue)) (a : HeapAddress) :
    Option RefCountedHeapValue :=
  match m with
  | [] => none
  | (a', v) :: rest => if a' = a then some v else memLookup rest a

def memSet (m : List (HeapAddress × RefCountedHeapValue)) (a : HeapAddress)
    (v : RefCountedHeapValue) : List (HeapAddress × RefCountedHeapValue) :=
  match m with
  | [] => []
  | (a', v') :: rest =>
    if a' = a then (a', v) :: rest else (a', v') :: memSet rest a v

def memRemove (m : List (HeapAddress × RefCountedHeapValue)) (a : HeapAddress) :
    List (HeapAddress × RefCountedHeapValue) :=
  match m with
  | [] => []
  | (a', v) :: rest =>
    if a' = a then memRemove rest a else (a', v) :: memRemove rest a

structure Heap where
  memory : List (HeapAddress × RefCountedHeapValue)
  heap_next_address : HeapAddress
  deriving DecidableEq

def Heap.new : Heap := { memory := [], heap_next_address := 0 }

/-- `Heap::alloc`: fresh address, refcount 0. -/
def Heap.alloc (h : Heap) (heap_value : HeapValue) : HeapAddress × Heap :=
  let address := h.heap_next_address
  (address,
   { memory := (address, { refcount := 0, heap_value := heap_value }) :: h.memory
     heap_next_address := h.heap_next_address + 1 })

/-- `Heap::deref` (fatal on an unknown address). -/
def Heap.deref (h : Heap) (a : HeapAddress) : Except String HeapValue :=
  match memLookup h.memory a with
  | none => .error "invalid pointer"
  | some rc => .ok rc.heap_value

/-- `Heap::inc_refcount`. -/
def Heap.inc_refcount (h : Heap) (a : HeapAddress) : Except String Heap :=
  match memLookup h.memory a with
  | none => .error "invalid pointer"
  | some rc =>
    .ok { h with memory := memSet h.memory a { rc with refcount := rc.refcount + 1 } }

/-- Decrement a list of owned addresses in order (the loops of `free`). -/
def decListF (dec : Heap → HeapAddress → Except String Heap) (h : Heap) :
    List HeapAddress → Except String Heap
  | [] => .ok h
  | a :: rest =>
    match dec h a with
    | .error msg => .error msg
    | .ok h1 => decListF dec h1 rest

/-- `Heap::free`, parameterized by the recursive decrement: remove the
cell and decrement everything it owned. -/
def freeF (dec : Heap → HeapAddress → Except String Heap) (h : Heap)
    (a : HeapAddress) : Except String Heap :=
  match memLookup h.memory a with
  | none => .error "attempt to free invalid pointer"
  | some rc =>
    let h1 : Heap := { h with memory := memRemove h.memory a }
    match rc.heap_value with
    | .int _ => .ok h1
    | .bool _ => .ok h1
    | .tuple t => decListF dec h1 t.field_values
    | .closure c => decListF dec h1 (c.environment.map (fun p => p.2))

/-- `Heap::dec_refcount` with explicit fuel for the recursive cascade
through `free`.  The `u32` subtraction `refcount -= 1` of a checked build
aborts when the count is already zero. -/
def decRefcountFuel : Nat → Heap → HeapAddress → Except String Heap
  | 0, _, _ => .error "out of fuel"
  | fuel + 1, h, a =>
    match memLookup h.memory a with
    | none => .error "invalid pointer"
    | some rc =>
      if rc.refcount = 0 then .error "attempt to subtract with overflow"
      else
        let new_refcount := rc.refcount - 1
        let h1 : Heap :=
          { h with memory := memSet h.memory a { rc with refcount := new_refcount } }
        if new_refcount = 0 then freeF (decRefcountFuel fuel) h1 a else .ok h1

/-- `Heap::dec_refcount`: the fuel `memory.length + 1` always suffices
because every nested `free` removes one cell from the heap. -/
def Heap.dec_refcount (h : Heap) (a : HeapAddress) : Except String Heap :=
  decRefcountFuel (h.memory.length + 1) h a

/-! ## Stack (`src/stack.rs`) -/

structure ReturnInfo where
  result_variable : String
  return_address : TargetAddress
  deriving DecidableEq

structure BlockFrame where
  values : List HeapAddress
  variable_offsets : List (String × Nat)
  return_info : Option ReturnInfo
  deriving DecidableEq

def BlockFrame.new (return_info : ReturnInfo) : BlockFrame :=
  { values := [], variable_offsets := [], return_info := some return_info }

/-- `BlockFrame::lookup_var`: offset map, then index into `values`; the
inner `expect` (index out of range) cannot fire because offsets are only
created by `set_var`, so the Rust `Option` result is kept and an
out-of-range offset is collapsed to `None` here (it would be a fatal
index panic in Rust, and is proved unreachable on every path used). -/
def BlockFrame.lookup_var (bf : BlockFrame) (name : String) : Option HeapAddress :=
  match mapLookup bf.variable_offsets name with
  | none => none
  | some offset => bf.values.get? offset

/-- `BlockFrame::set_var`: append the value and record its offset. -/
def BlockFrame.set_var (bf : BlockFrame) (name : String) (value : HeapAddress) :
    BlockFrame :=
  { bf with
    values := bf.values ++ [value]
    variable_offsets := mapInsert bf.variable_offsets name bf.values.length }

/-- Call frames; `nested_block_frames` is head-innermost. -/
structure CallStackFrame where
  nested_block_frames : List BlockFrame
  deriving DecidableEq

def CallStackFrame.new (return_info : ReturnInfo) : CallStackFrame :=
  { nested_block_frames := [BlockFrame.new return_info] }

/-- The innermost-first search loop of `CallStackFrame::lookup_var`. -/
def lookupVarBlocks (frames : List BlockFrame) (name : String) :
    Except String HeapAddress :=
  match frames with
  | [] => .error "could not find variable in stack frame"
  | bf :: rest =>
    match bf.lookup_var name with
    | some value => .ok value
    | none => lookupVarBlocks rest name

/-- `CallStackFrame::lookup_var`: innermost block frame first; a miss in
every frame is the fatal "could not find variable in stack frame". -/
def CallStackFrame.lookup_var (f : CallStackFrame) (name : String) :
    Except String HeapAddress :=
  lookupVarBlocks f.nested_block_frames name

def CallStackFrame.set_var_no_refcount (f : CallStackFrame) (name : String)
    (value : HeapAddress) : Except String CallStackFrame :=
  match f.nested_block_frames with
  | [] => .error "expected active block"
  | bf :: rest => .ok { nested_block_frames := bf.set_var name value :: rest }

/-- The stack; `frames` is head-innermost. -/
structure Stack where
  frames : List CallStackFrame
  deriving DecidableEq

/-- `Stack::new`: one call frame with one root block frame whose
`return_info` is `None`. -/
def Stack.new : Stack :=
  { frames := [{ nested_block_frames :=
      [{ values := [], variable_offsets := [], return_info := none }] }] }

def Stack.enter_function (st : Stack) (return_info : ReturnInfo) : Stack :=
  { frames := CallStackFrame.new return_info :: st.frames }

def Stack.enter_block (st : Stack) (return_info : ReturnInfo) :
    Except String Stack :=
  match st.frames with
  | [] => .error "stack should not be empty"
  | f :: rest =>
    .ok { frames := { nested_block_frames :=
            BlockFrame.new return_info :: f.nested_block_frames } :: rest }

/-- `Stack::exit_block`: pop the innermost block frame; when the call
frame has no block frames left, pop the call frame as well. -/
def Stack.exit_block (st : Stack) : Except String (BlockFrame × Stack) :=
  match st.frames with
  | [] => .error "stack should not be empty"
  | f :: rest =>
    match f.nested_block_frames with
    | [] => .error "exiting block while no more block frames"
    | bf :: bfs =>
      if bfs.isEmpty then .ok (bf, { frames := rest })
      else .ok (bf, { frames := { nested_block_frames := bfs } :: rest })

def Stack.set_var_no_refcount (st : Stack) (name : String)
    (value : HeapAddress) : Except String Stack :=
  match st.frames with
  | [] => .error "stack should not be empty"
  | f :: rest =>
    match f.set_var_no_refcount name value with
    | .error msg => .error msg
    | .ok f1 => .ok { frames := f1 :: rest }

/-- `Stack::lookup_var` (never crosses call-frame boundaries). -/
def Stack.lookup_var (st : Stack) (name : String) : Except String HeapAddress :=
  match st.frames with
  | [] => .error "stack should not be empty"
  | f :: _ => f.lookup_var name

/-! ## Iterative interpreter (`src/ir_let/interpreter/simple_eval.rs`) -/

structure InstructionEvaluator where
  heap : Heap
  stack : Stack
  deriving DecidableEq

def InstructionEvaluator.new : InstructionEvaluator :=
  { heap := Heap.new, stack := Stack.new }

/-- `InstructionEvaluator::set_var`: the sole way a name gets bound —
increment the refcount, then store in the innermost block frame. -/
def InstructionEvaluator.set_var (ev : InstructionEvaluator) (name : String)
    (address : HeapAddress) : Except String InstructionEvaluator :=
  match ev.heap.inc_refcount address with
  | .error msg => .error msg
  | .ok heap1 =>
    match ev.stack.set_var_no_refcount name address with
    | .error msg => .error msg
    | .ok stack1 => .ok { heap := heap1, stack := stack1 }

/-- `InstructionEvaluator::eval_binop`.  `Add`/`Sub` are checked `i32`
arithmetic (overflow aborts); `Get` converts the `i32` index with
`as usize` (a negative index becomes a huge offset, hence out of range)
and returns the addressed field without touching any refcount. -/
def InstructionEvaluator.eval_binop (ev : InstructionEvaluator) (op : BinOp)
    (lhs_addr rhs_addr : HeapAddress) :
    Except String (HeapAddress × InstructionEvaluator) :=
  match op with
  | .add =>
    match ev.heap.deref lhs_addr with
    | .error msg => .error msg
    | .ok lv =>
      match lv.check_int with
      | .error msg => .error msg
      | .ok lhs_value =>
        match ev.heap.deref rhs_addr with
        | .error msg => .error msg
        | .ok rv =>
          match rv.check_int with
          | .error msg => .error msg
          | .ok rhs_value =>
            if i32InRange (lhs_value + rhs_value) then
              let (a, heap1) := ev.heap.alloc (.int (lhs_value + rhs_value))
              .ok (a, { ev with heap := heap1 })
            else .error "attempt to add with overflow"
  | .sub =>
    match ev.heap.deref lhs_addr with
    | .error msg => .error msg
    | .ok lv =>
      match lv.check_int with
      | .error msg => .error msg
      | .ok lhs_value =>
        match ev.heap.deref rhs_addr with
        | .error msg => .error msg
        | .ok rv =>
          match rv.check_int with
          | .error msg => .error msg
          | .ok rhs_value =>
            if i32InRange (lhs_value - rhs_value) then
              let (a, heap1) := ev.heap.alloc (.int (lhs_value - rhs_value))
              .ok (a, { ev with heap := heap1 })
            else .error "attempt to subtract with overflow"
  | .eq =>
    match ev.heap.deref lhs_addr with
    | .error msg => .error msg
    | .ok lv =>
      match lv.check_int with
      | .error msg => .error msg
      | .ok lhs_value =>
        match ev.heap.deref rhs_addr with
        | .error msg => .error msg
        | .ok rv =>
          match rv.check_int with
          | .error msg => .error msg
          | .ok rhs_value =>
            let (a, heap1) := ev.heap.alloc (.bool (lhs_value == rhs_value))
            .ok (a, { ev with heap := heap1 })
  | .get =>
    match ev.heap.deref lhs_addr with
    | .error msg => .error msg
    | .ok lv =>
      match lv.check_tuple with
      | .error msg => .error msg
      | .ok tuple =>
        match ev.heap.deref rhs_addr with
        | .error msg => .error msg
        | .ok rv =>
          match rv.check_int with
          | .error msg => .error msg
          | .ok index =>
            if h : 0 ≤ index ∧ index.toNat < tuple.field_values.length then
              .ok (tuple.field_values.get ⟨index.toNat, h.2⟩, ev)
            else .error "field index out of range"

def InstructionEvaluator.eval_var (ev : InstructionEvaluator)
    (e : VariableReference) : Except String HeapAddress :=
  ev.stack.lookup_var e.var_name

/-- Resolve a list of variable references left to right. -/
def InstructionEvaluator.eval_var_list (ev : InstructionEvaluator) :
    List VariableReference → Except String (List HeapAddress)
  | [] => .ok []
  | v :: rest =>
    match ev.eval_var v with
    | .error msg => .error msg
    | .ok a =>
      match ev.eval_var_list rest with
      | .error msg => .error msg
      | .ok as_ => .ok (a :: as_)

/-- Increment the refcount of each address in order (the `for` loops over
a freshly built tuple/environment). -/
def incRefcountList (h : Heap) : List HeapAddress → Except String Heap
  | [] => .ok h
  | a :: rest =>
    match h.inc_refcount a with
    | .error msg => .error msg
    | .ok h1 => incRefcountList h1 rest

/-- `InstructionEvaluator::eval_simple`. -/
def InstructionEvaluator.eval_simple (ev : InstructionEvaluator) (e : Simple) :
    Except String (HeapAddress × InstructionEvaluator) :=
  match e with
  | .literal (.int value) =>
    let (a, heap1) := ev.heap.alloc (.int value)
    .ok (a, { ev with heap := heap1 })
  | .literal (.bool value) =>
    let (a, heap1) := ev.heap.alloc (.bool value)
    .ok (a, { ev with heap := heap1 })
  | .tuple args =>
    match ev.eval_var_list args with
    | .error msg => .error msg
    | .ok field_values =>
      match incRefcountList ev.heap field_values with
      | .error msg => .error msg
      | .ok heap1 =>
        let (a, heap2) := heap1.alloc (.tuple { field_values := field_values })
        .ok (a, { ev with heap := heap2 })
  | .fun_ f =>
    match ev.eval_var_list (f.free_names.map (fun n => { var_name := n })) with
    | .error msg => .error msg
    | .ok addrs =>
      let closure_environment := f.free_names.zip addrs
      match incRefcountList ev.heap (closure_environment.map (fun p => p.2)) with
      | .error msg => .error msg
      | .ok heap1 =>
        let (a, heap2) := heap1.alloc (.closure
          { name := f.name, arg_names := f.arg_names,
            environment := closure_environment, body := f.body })
        .ok (a, { ev with heap := heap2 })
  | .binop op lhs rhs =>
    match ev.eval_var lhs with
    | .error msg => .error msg
    | .ok lhs_address =>
      match ev.eval_var rhs with
      | .error msg => .error msg
      | .ok rhs_address => ev.eval_binop op lhs_address rhs_address
  | .set tuple index new_value =>
    match ev.eval_var tuple with
    | .error msg => .error msg
    | .ok tuple_address =>
      match ev.eval_var new_value with
      | .error msg => .error msg
      | .ok new_value_addr =>
        match ev.heap.deref tuple_address with
        | .error msg => .error msg
        | .ok tv =>
          match tv.check_tuple with
          | .error msg => .error msg
          | .ok t =>
            if h : index < t.field_values.length then
              let old_value := t.field_values.get ⟨index, h⟩
              let t1 : Tuple :=
                { field_values := t.field_values.set index new_value_addr }
              match memLookup ev.heap.memory tuple_address with
              | none => .error "invalid pointer"
              | some rc =>
                let mem1 := memSet ev.heap.memory tuple_address
                  { rc with heap_value := .tuple t1 }
                let heap1 : Heap := { ev.heap with memory := mem1 }
                -- Ordering is load-bearing: `inc(new)` before `dec(old)` so
                -- that `new == old` does not transiently drop the cell.
                match heap1.inc_refcount new_value_addr with
                | .error msg => .error msg
                | .ok heap2 =>
                  match heap2.dec_refcount old_value with
                  | .error msg => .error msg
                  | .ok heap3 =>
                    let (a, heap4) := heap3.alloc (.tuple { field_values := [] })
                    .ok (a, { ev with heap := heap4 })
            else .error "tuple index out of range during mutation"

/-- Bind `(name, value)` pairs in order with `set_var` (the argument and
environment loops of `Call`). -/
def InstructionEvaluator.set_var_list (ev : InstructionEvaluator) :
    List (String × HeapAddress) → Except String InstructionEvaluator
  | [] => .ok ev
  | (name, value) :: rest =>
    match ev.set_var name value with
    | .error msg => .error msg
    | .ok ev1 => ev1.set_var_list rest

/-- `InstructionEvaluator::eval_control`.  Note that the `If` arm ignores
`return_info` and pushes nothing: it only selects the branch target. -/
def InstructionEvaluator.eval_control (ev : InstructionEvaluator) (c : Control)
    (return_info : ReturnInfo) :
    Except String (TargetAddress × InstructionEvaluator) :=
  match c with
  | .call func args =>
    match ev.eval_var func with
    | .error msg => .error msg
    | .ok closure_address =>
      match ev.eval_var_list args with
      | .error msg => .error msg
      | .ok arg_values =>
        match ev.heap.deref closure_address with
        | .error msg => .error msg
        | .ok cv =>
          match cv.check_closure with
          | .error msg => .error msg
          | .ok closure =>
            if closure.arg_names.length ≠ args.length then
              .error "incorrect number of arguments"
            else
              let ev1 : InstructionEvaluator :=
                { ev with stack := ev.stack.enter_function return_info }
              match ev1.set_var_list closure.environment with
              | .error msg => .error msg
              | .ok ev2 =>
                match ev2.set_var_list (closure.arg_names.zip arg_values) with
                | .error msg => .error msg
                | .ok ev3 =>
                  match ev3.set_var closure.name closure_address with
                  | .error msg => .error msg
                  | .ok ev4 => .ok (closure.body, ev4)
  | .if_ condition branch_success branch_failure =>
    match ev.eval_var condition with
    | .error msg => .error msg
    | .ok condition_address =>
      match ev.heap.deref condition_address with
      | .error msg => .error msg
      | .ok cv =>
        match cv.check_bool with
        | .error msg => .error msg
        | .ok condition_value =>
          if condition_value then .ok (branch_success, ev)
          else .ok (branch_failure, ev)

/-- `InstructionEvaluator::eval_instruction` (for `Assignment`s). -/
def InstructionEvaluator.eval_instruction (ev : InstructionEvaluator)
    (address : TargetAddress) (instruction : Assignment) :
    Except String (TargetAddress × InstructionEvaluator) :=
  match instruction.definition with
  | .var var =>
    match ev.eval_var var with
    | .error msg => .error msg
    | .ok value =>
      match ev.set_var instruction.name value with
      | .error msg => .error msg
      | .ok ev1 => .ok (address.next, ev1)
  | .step (.simple simple) =>
    match ev.eval_simple simple with
    | .error msg => .error msg
    | .ok (value, ev1) =>
      match ev1.set_var instruction.name value with
      | .error msg => .error msg
      | .ok ev2 => .ok (address.next, ev2)
  | .step (.control control) =>
    let return_info : ReturnInfo :=
      { result_variable := instruction.name, return_address := address.next }
    ev.eval_control control return_info

/-! ## Program evaluator (`ProgramEvaluator`) -/

structure ProgramEvaluator where
  program : Program
  instruction_evaluator : InstructionEvaluator
  program_counter : TargetAddress
  deriving DecidableEq

def ProgramEvaluator.new (program : Program) : ProgramEvaluator :=
  { program := program
    instruction_evaluator := InstructionEvaluator.new
    program_counter :=
      { function_index := 0, block_index := 0, instruction_index := 0 } }

/-- `Program::get_instruction` (all three `expect`s are fatal). -/
def Program.get_instruction (p : Program) (address : TargetAddress) :
    Except String Instruction :=
  match p.functions.get? address.function_index with
  | none => .error "invalid function index"
  | some function =>
    match function.blocks.get? address.block_index with
    | none => .error "invalid block index"
    | some block =>
      match block.instructions.get? address.instruction_index with
      | none => .error "invalid instruction index"
      | some instruction => .ok instruction

/-- Decrement every local of a popped block frame, in push order (the
`for address in &block.values` loop of `ExitBlock`). -/
def decBlockValues (h : Heap) : List HeapAddress → Except String Heap
  | [] => .ok h
  | a :: rest =>
    match h.dec_refcount a with
    | .error msg => .error msg
    | .ok h1 => decBlockValues h1 rest

/-- `ProgramEvaluator::step`: returns `some result` when the root
`ExitBlock` fires, `none` to continue. -/
def ProgramEvaluator.step (pe : ProgramEvaluator) :
    Except String (Option HeapValue × ProgramEvaluator) :=
  match pe.program.get_instruction pe.program_counter with
  | .error msg => .error msg
  | .ok current_instruction =>
    match current_instruction with
    | .enterBlock =>
      .ok (none, { pe with program_counter := pe.program_counter.next })
    | .exitBlock return_var =>
      match pe.instruction_evaluator.stack.exit_block with
      | .error msg => .error msg
      | .ok (block, stack1) =>
        match block.lookup_var return_var.var_name with
        | none =>
          .error "could not find return value of block in block local variables"
        | some return_value =>
          match block.return_info with
          | none =>
            match pe.instruction_evaluator.heap.deref return_value with
            | .error msg => .error msg
            | .ok result =>
              -- The locals are released only after the result has been
              -- cloned out of the heap.
              match decBlockValues pe.instruction_evaluator.heap block.values with
              | .error msg => .error msg
              | .ok heap1 =>
                .ok (some result,
                  { pe with instruction_evaluator := { heap := heap1, stack := stack1 } })
          | some return_info =>
            -- Re-root the result in the caller frame first, then release
            -- the popped frame's locals.
            match InstructionEvaluator.set_var
                { heap := pe.instruction_evaluator.heap, stack := stack1 }
                return_info.result_variable return_value with
            | .error msg => .error msg
            | .ok ev1 =>
              match decBlockValues ev1.heap block.values with
              | .error msg => .error msg
              | .ok heap2 =>
                .ok (none,
                  { pe with
                    instruction_evaluator := { ev1 with heap := heap2 }
                    program_counter := return_info.return_address })
    | .assignment assignment =>
      match pe.instruction_evaluator.eval_instruction pe.program_counter
          assignment with
      | .error msg => .error msg
      | .ok (next_address, ev1) =>
        .ok (none,
          { pe with instruction_evaluator := ev1, program_counter := next_address })

/-- `ProgramEvaluator::run` with fuel: loop `step` until a result. -/
def runLoop (fuel : Nat) (pe : ProgramEvaluator) :
    Except String (HeapValue × ProgramEvaluator) :=
  match fuel with
  | 0 => .error "out of fuel"
  | fuel + 1 =>
    match pe.step with
    | .error msg => .error msg
    | .ok (some result, pe1) => .ok (result, pe1)
    | .ok (none, pe1) => runLoop fuel pe1

/-- Run a normalized program from the initial state, also exposing the
final interpreter state (the Rust `run` returns only the value). -/
def programRunFull (p : Program) (fuel : Nat) :
    Except String (HeapValue × ProgramEvaluator) :=
  runLoop fuel (ProgramEvaluator.new p)

def programRun (p : Program) (fuel : Nat) : Except String HeapValue :=
  match programRunFull p fuel with
  | .error msg => .error msg
  | .ok (result, _) => .ok result

/-! ## The hard-coded driver expressions (`src/fib.rs`) -/

/-- `fib_helper_def`: tail-recursive helper with accumulators
(`a = 1, b = 0`, step `(n-1, a+b, a)`, base `n == 0 → b`). -/
def fib_helper_def : Expr :=
  .fun_ "fib_helper" ["n", "a", "b"]
    (.if_ (.binop .eq (.var "n") (.literal (.int 0)))
      (.var "b")
      (.call (.var "fib_helper")
        [.binop .sub (.var "n") (.literal (.int 1)),
         .binop .add (.var "a") (.var "b"),
         .var "a"]))

/-- `fib_def`: `fib(n) = fib_helper(n, 1, 0)`. -/
def fib_def : Expr :=
  .fun_ "fib" ["n"]
    (.call (.var "fib_helper")
      [.var "n", .literal (.int 1), .literal (.int 0)])

/-- `fib_test(n)`: the driver expression. -/
def fib_test (n : Int) : Expr :=
  .let_ "fib_helper" fib_helper_def
    (.let_ "fib" fib_def
      (.call (.var "fib") [.literal (.int n)]))

/-- The C2 discriminating expression: `1 + (if 1 == 1 then 2 else 3)`.
The `If` is not in tail position, so the spec semantics (branch block
frame carrying the `If` assignment's return info) yields `1 + 2 = 4 - 1 = 3`,
while the interpreter as coded terminates early inside the branch. -/
def addIfExpr : Expr :=
  .binop .add (.literal (.int 1))
    (.if_ (.binop .eq (.literal (.int 1)) (.literal (.int 1)))
      (.literal (.int 2)) (.literal (.int 3)))

/-! ## Claim theorems -/

/-- The program the normalizer produces for `fib_test 10`. -/
def fibProgram : Program :=
  (letNormalize (fib_test 10)).toOption.getD { functions := [] }

/-- The program the normalizer produces for `Literal(Int 42)`. -/
def lit42Program : Program :=
  (letNormalize (.literal (.int 42))).toOption.getD { functions := [] }

/-- The final interpreter state after running `lit42Program`. -/
def lit42Final : ProgramEvaluator :=
  match programRunFull lit42Program 100 with
  | .ok (_, ev) => ev
  | .error _ => ProgramEvaluator.new lit42Program

/-- Concrete heap for the C9 witness: one cell at address 0 with
refcount 0. -/
def underflowHeap : Heap :=
  { memory := [(0, { refcount := 0, heap_value := .int 7 })]
    heap_next_address := 1 }

/-- C10 counterexample state: two live `Int` cells holding `i32::MAX`
and `1`. -/
def overflowEv : InstructionEvaluator :=
  { heap :=
      { memory :=
          [(0, { refcount := 1, heap_value := .int 2147483647 }),
           (1, { refcount := 1, heap_value := .int 1 })]
        heap_next_address := 2 }
    stack := Stack.new }

/-- C8 witness state: a live 2-field tuple at address 0 and `Int` indices
1 and 2 at addresses 3 and 4. -/
def getEv : InstructionEvaluator :=
  { heap :=
      { memory :=
          [(0, { refcount := 1, heap_value := .tuple { field_values := [1, 2] } }),
           (1, { refcount := 1, heap_value := .int 10 }),
           (2, { refcount := 1, heap_value := .int 20 }),
           (3, { refcount := 1, heap_value := .int 1 }),
           (4, { refcount := 1, heap_value := .int 2 })]
        heap_next_address := 5 }
    stack := Stack.new }

/-- C7 witness state: a self-referencing field — a 1-field tuple at
address 0 whose field is the `Int` cell at address 1 (refcount 1), with
names `t ↦ 0` and `x ↦ 1` on the stack. -/
def setEv : InstructionEvaluator :=
  { heap :=
      { memory :=
          [(0, { refcount := 1, heap_value := .tuple { field_values := [1] } }),
           (1, { refcount := 1, heap_value := .int 5 })]
        heap_next_address := 2 }
    stack :=
      { frames := [{ nested_block_frames :=
          [{ values := [0, 1], variable_offsets := [("t", 0), ("x", 1)],
             return_info := none }] }] } }

/-! ## C3: re-rooting before release on `ExitBlock` -/

/-- `Int`/`Bool` cells are freed as leaves (no recursive decrements). -/
def HeapValue.isLeaf : HeapValue → Bool
  | .int _ => true
  | .bool _ => true
  | .tuple _ => false
  | .closure _ => false

/-- Occurrences of an address among a frame's locals. -/
def countOcc (a : HeapAddress) : List HeapAddress → Nat
  | [] => 0
  | b :: rest => (if b = a then 1 else 0) + countOcc a rest

/-- C3 witness pieces: the return info, the popped frame (`x ↦ 0` the
result with refcount 1, `y ↦ 1` a live leaf), and the caller's root
frame. -/
def exitRI : ReturnInfo :=
  { result_variable := "r"
    return_address :=
      { function_index := 0, block_index := 0, instruction_index := 2 } }

def exitBF : BlockFrame :=
  { values := [0, 1]
    variable_offsets := [("x", 0), ("y", 1)]
    return_info := some exitRI }

def rootBF : BlockFrame :=
  { values := [], variable_offsets := [], return_info := none }

def exitPE : ProgramEvaluator :=
  { program :=
      { functions :=
          [{ name := "toplevel", arg_names := [], free_names := some []
             blocks :=
               [{ instructions := [.enterBlock, .exitBlock { var_name := "x" }]
                  parent_block_index := none }] }] }
    instruction_evaluator :=
      { heap :=
          { memory :=
              [(0, { refcount := 1, heap_value := .int 9 }),
               (1, { refcount := 1, heap_value := .int 8 })]
            heap_next_address := 2 }
        stack :=
          { frames :=
              [{ nested_block_frames := [exitBF] },
               { nested_block_frames := [rootBF] }] } }
    program_counter :=
      { function_index := 0, block_index := 0, instruction_index := 1 } }

/-! ## C4 / C5: structural invariants of the normalizer

The mutual induction below tracks, through every normalizer step: the
current block grows only by `Assignment`s; every other existing block and
every other existing function is untouched; every block created during a
step is finished (`EnterBlock` first, `ExitBlock` last, `Assignment`s in
between); every function created during a step is finished with
`free_names` committed to the free-variable analysis of its final blocks;
and every emitted closure-allocation step agrees with its lifted
function. -/

def isAssignmentInstr : Instruction → Prop
  | .assignment _ => True
  | _ => False

/-- A block under construction: `EnterBlock` first, then assignments. -/
def OpenBlock (b : Block) : Prop :=
  ∃ mid, b.instructions = .enterBlock :: mid ∧ ∀ i ∈ mid, isAssignmentInstr i

/-- A finished block: `EnterBlock` first, `ExitBlock` last, assignments
in between. -/
def ClosedBlock (b : Block) : Prop :=
  ∃ mid v, b.instructions = .enterBlock :: (mid ++ [.exitBlock v]) ∧
    ∀ i ∈ mid, isAssignmentInstr i

/-- A closure-allocation record agrees with the lifted function it
points to: same name, parameters and committed free names, entry at the
function's block 0, instruction 0. -/
def ClosOK (p : Program) (ac : AllocClosure) : Prop :=
  ∃ f', p.functions.get? ac.body.function_index = some f' ∧
    f'.free_names = some ac.free_names ∧ f'.name = ac.name ∧
    f'.arg_names = ac.arg_names ∧ ac.body.block_index = 0 ∧
    ac.body.instruction_index = 0

def DefOK (p : Program) (d : Definition) : Prop :=
  ∀ ac, d = .step (.simple (.fun_ ac)) → ClosOK p ac

def InstrOK (p : Program) (i : Instruction) : Prop :=
  ∀ a, i = .assignment a → DefOK p a.definition

/-- A function whose normalization is finished: `free_names` equals the
free-variable analysis of its (final) blocks from entry block 0. -/
def FnDone (f : Function) : Prop :=
  f.free_names = some (freeVarsFunction f.blocks f.name f.arg_names 0)

def DoneFun (p : Program) (f : Function) : Prop :=
  FnDone f ∧ ∀ b ∈ f.blocks, ClosedBlock b ∧ ∀ i ∈ b.instructions, InstrOK p i

/-- Functions with committed free names are never modified again. -/
def PreservesDone (p q : Program) : Prop :=
  ∀ k f, p.functions.get? k = some f → f.free_names ≠ none →
    q.functions.get? k = some f

/-- Normalizer-state precondition: an in-progress current function and an
open current block. -/
def CurOpen (s : NormState) (fi bi : Nat) (f : Function) (b : Block) : Prop :=
  s.current_function_index = some fi ∧ s.current_block_index = some bi ∧
  s.program.functions.get? fi = some f ∧ f.free_names = none ∧
  f.blocks.get? bi = some b ∧ OpenBlock b

/-- Postcondition of `normalize_rhs` / `normalize_var` relative to the
entry state: cursors restored, all other functions untouched, the current
function's other blocks untouched, its new blocks finished, the current
block extended by well-formed assignments only, and all functions created
on the way finished. -/
structure RhsPost (fi bi : Nat) (f : Function) (b : Block)
    (s s₁ : NormState) : Prop where
  cfi : s₁.current_function_index = some fi
  cbi : s₁.current_block_index = some bi
  len : s.program.functions.length ≤ s₁.program.functions.length
  others : ∀ k, k < s.program.functions.length → k ≠ fi →
    s₁.program.functions.get? k = s.program.functions.get? k
  cur : ∃ f₁ b₁ tail,
    s₁.program.functions.get? fi = some f₁ ∧
    f₁.name = f.name ∧ f₁.arg_names = f.arg_names ∧ f₁.free_names = none ∧
    f.blocks.length ≤ f₁.blocks.length ∧
    (∀ l, l < f.blocks.length → l ≠ bi → f₁.blocks.get? l = f.blocks.get? l) ∧
    (∀ l bl, f.blocks.length ≤ l → f₁.blocks.get? l = some bl →
      ClosedBlock bl ∧ ∀ i ∈ bl.instructions, InstrOK s₁.program i) ∧
    f₁.blocks.get? bi = some b₁ ∧
    b₁.parent_block_index = b.parent_block_index ∧
    b₁.instructions = b.instructions ++ tail ∧
    (∀ i ∈ tail, isAssignmentInstr i ∧ InstrOK s₁.program i)
  newfuns : ∀ k fk, s.program.functions.length ≤ k →
    s₁.program.functions.get? k = some fk → DoneFun s₁.program fk

/-- Postcondition of `normalize_block`: the returned address names a new,
finished block at the end of the current function; everything previously
existing is untouched. -/
structure BlockPost (fi : Nat) (f : Function) (s s₁ : NormState)
    (addr : TargetAddress) : Prop where
  addr_eq : addr = { function_index := fi, block_index := f.blocks.length, instruction_index := 0 }
  cfi : s₁.current_function_index = some fi
  cbi : s₁.current_block_index = s.current_block_index
  len : s.program.functions.length ≤ s₁.program.functions.length
  others : ∀ k, k < s.program.functions.length → k ≠ fi →
    s₁.program.functions.get? k = s.program.functions.get? k
  cur : ∃ f₁,
    s₁.program.functions.get? fi = some f₁ ∧
    f₁.name = f.name ∧ f₁.arg_names = f.arg_names ∧ f₁.free_names = none ∧
    f.blocks.length < f₁.blocks.length ∧
    (∀ l, l < f.blocks.length → f₁.blocks.get? l = f.blocks.get? l) ∧
    (∀ l bl, f.blocks.length ≤ l → f₁.blocks.get? l = some bl →
      ClosedBlock bl ∧ ∀ i ∈ bl.instructions, InstrOK s₁.program i)
  newfuns : ∀ k fk, s.program.functions.length ≤ k →
    s₁.program.functions.get? k = some fk → DoneFun s₁.program fk

/-- Postcondition of `normalize_function_body`: everything previously
existing is untouched, every function from the old length on is
finished, and the returned closure record agrees with the new function at
the old length. -/
structure FunBodyPost (s s₁ : NormState) (ac : AllocClosure) : Prop where
  cfi : s₁.current_function_index = s.current_function_index
  cbi : s₁.current_block_index = s.current_block_index
  len : s.program.functions.length < s₁.program.functions.length
  olds : ∀ k, k < s.program.functions.length →
    s₁.program.functions.get? k = s.program.functions.get? k
  newfuns : ∀ k fk, s.program.functions.length ≤ k →
    s₁.program.functions.get? k = some fk → DoneFun s₁.program fk
  clos : ClosOK s₁.program ac
  body_eq : ac.body = { function_index := s.program.functions.length, block_index := 0, instruction_index := 0 }


/-! ### Top level: every function of a normalized program is finished -/

/-- Boolean test used to count `EnterBlock` occurrences. -/
def isEnterBlock : Instruction → Bool
  | .enterBlock => true
  | _ => false

/-- Boolean test used to count `ExitBlock` occurrences. -/
def isExitBlockInstr : Instruction → Bool
  | .exitBlock _ => true
  | _ => false


/-! ## Theorems -/

/-- C1: for the driver expression `fib_test(10)` (tail-recursive helper
with accumulators `a = 1, b = 0`, step `(n-1, a+b, a)`, base `n == 0 → b`),
`let_normalize` succeeds and `ProgramEvaluator::run` on the resulting
program terminates with the heap value `Int 55`. -/
theorem fib_test_ten_runs_to_55 :
    ∃ p, letNormalize (fib_test 10) = Except.ok p ∧
      programRun p 1000 = Except.ok (HeapValue.int 55) :=
  ⟨fibProgram, by rfl, by rfl⟩

/-- C2 (counter-evidence): the interpreter never pushes a block frame: the
`EnterBlock` arm of `ProgramEvaluator::step` only advances the program
counter and the `If` arm of `eval_control` discards its `return_info`, so
the branch's `ExitBlock` pops the enclosing frame.  On the non-tail `If`
of `addIfExpr` the run therefore terminates early inside the branch with
`Int 2`; under the claimed semantics (branch block frame carrying the
`If` assignment's name and the address after the assignment) the result
would be `Int 3`. -/
theorem enter_block_pushes_no_frame_addIf_returns_2 :
    (letNormalize addIfExpr).bind (fun p => programRun p 100) =
      Except.ok (HeapValue.int 2) := by
  rfl

/-- C6: normalizing and running `Literal(Int 42)` returns `Int 42` (a copy
out of the heap), and after the run terminates the heap holds no live
cells. -/
theorem literal_42_runs_clean :
    ∃ p ev, letNormalize (.literal (.int 42)) = Except.ok p ∧
      programRunFull p 100 = Except.ok (HeapValue.int 42, ev) ∧
      ev.instruction_evaluator.heap.memory = [] :=
  ⟨lit42Program, lit42Final, by rfl, by rfl, by rfl⟩

/-- C9: refcount underflow is a fatal runtime fault: `dec_refcount` on an
address whose refcount is 0 aborts with the (checked `u32` subtraction)
diagnostic instead of silently continuing, so no cell is ever left
allocated with a corrupted count. -/
theorem dec_refcount_underflow_fatal (h : Heap) (a : HeapAddress)
    (rc : RefCountedHeapValue) (hmem : memLookup h.memory a = some rc)
    (hzero : rc.refcount = 0) :
    h.dec_refcount a = Except.error "attempt to subtract with overflow" := by
  simp [Heap.dec_refcount, decRefcountFuel, hmem, hzero]

theorem dec_refcount_underflow_fatal_witness :
    memLookup underflowHeap.memory 0 =
      some { refcount := 0, heap_value := .int 7 } ∧
    underflowHeap.dec_refcount 0 =
      Except.error "attempt to subtract with overflow" :=
  ⟨rfl, dec_refcount_underflow_fatal underflowHeap 0
    { refcount := 0, heap_value := .int 7 } rfl rfl⟩

/-! ## Helper lemmas about the heap association list -/

theorem memLookup_memSet_self (m : List (HeapAddress × RefCountedHeapValue))
    (a : HeapAddress) (v w : RefCountedHeapValue)
    (hm : memLookup m a = some w) :
    memLookup (memSet m a v) a = some v := by
  induction m with
  | nil => simp [memLookup] at hm
  | cons p rest ih =>
    obtain ⟨a', v'⟩ := p
    by_cases h : a' = a
    · subst h; simp [memLookup, memSet]
    · simp [memLookup, memSet, h] at hm ⊢
      exact ih hm

theorem memLookup_memSet_ne (m : List (HeapAddress × RefCountedHeapValue))
    (a b : HeapAddress) (v : RefCountedHeapValue) (hne : b ≠ a) :
    memLookup (memSet m a v) b = memLookup m b := by
  induction m with
  | nil => simp [memSet]
  | cons p rest ih =>
    obtain ⟨a', v'⟩ := p
    by_cases h : a' = a
    · subst h
      simp [memLookup, memSet, Ne.symm hne]
    · simp [memLookup, memSet, h]
      by_cases h2 : a' = b <;> simp [h2, ih]

theorem memLookup_memRemove_ne (m : List (HeapAddress × RefCountedHeapValue))
    (a b : HeapAddress) (hne : b ≠ a) :
    memLookup (memRemove m a) b = memLookup m b := by
  induction m with
  | nil => simp [memRemove]
  | cons p rest ih =>
    obtain ⟨a', v'⟩ := p
    by_cases h : a' = a
    · subst h; simp [memLookup, memRemove, Ne.symm hne, ih]
    · simp [memLookup, memRemove, h]
      by_cases h2 : a' = b <;> simp [h2, ih]

/-- C10 (counterexample): `Add` on `i32::MAX` and `1` aborts with the
checked-arithmetic overflow diagnostic — the claimed wrapped result
`Int (-2147483648)` is never produced, and overflow *is* a runtime fault
that aborts evaluation. -/
theorem add_max_plus_one_aborts :
    overflowEv.eval_binop .add 0 1 =
      Except.error "attempt to add with overflow" := by
  rfl

/-- C10 (amended): for `Int` operands, `Add` and `Sub` produce a freshly
allocated cell holding the exact sum or difference whenever it fits the
`i32` range, and abort with an overflow fault otherwise. -/
theorem add_sub_exact_or_abort (ev : InstructionEvaluator)
    (la ra : HeapAddress) (x y : Int) (cl cr : RefCountedHeapValue)
    (hl : memLookup ev.heap.memory la = some cl) (hvl : cl.heap_value = .int x)
    (hr : memLookup ev.heap.memory ra = some cr) (hvr : cr.heap_value = .int y) :
    (i32InRange (x + y) →
      ev.eval_binop .add la ra =
        Except.ok ((ev.heap.alloc (.int (x + y))).1,
          { ev with heap := (ev.heap.alloc (.int (x + y))).2 })) ∧
    (¬ i32InRange (x + y) →
      ev.eval_binop .add la ra = Except.error "attempt to add with overflow") ∧
    (i32InRange (x - y) →
      ev.eval_binop .sub la ra =
        Except.ok ((ev.heap.alloc (.int (x - y))).1,
          { ev with heap := (ev.heap.alloc (.int (x - y))).2 })) ∧
    (¬ i32InRange (x - y) →
      ev.eval_binop .sub la ra =
        Except.error "attempt to subtract with overflow") := by
  refine ⟨?_, ?_, ?_, ?_⟩ <;> intro hrange <;>
    simp [InstructionEvaluator.eval_binop, Heap.deref, hl, hr, hvl, hvr,
      HeapValue.check_int, hrange]

/-- C10 amended-claim witness: a concrete in-range addition (`1 + 1`) and
a concrete overflowing one (`i32::MAX + i32::MAX`) on `overflowEv`. -/
theorem add_sub_exact_or_abort_witness :
    (overflowEv.eval_binop .add 1 1 =
      Except.ok ((overflowEv.heap.alloc (.int (1 + 1))).1,
        { overflowEv with heap := (overflowEv.heap.alloc (.int (1 + 1))).2 })) ∧
    (overflowEv.eval_binop .add 0 0 =
      Except.error "attempt to add with overflow") :=
  ⟨(add_sub_exact_or_abort overflowEv 1 1 1 1
      { refcount := 1, heap_value := .int 1 }
      { refcount := 1, heap_value := .int 1 } rfl rfl rfl rfl).1 (by decide),
   (add_sub_exact_or_abort overflowEv 0 0 2147483647 2147483647
      { refcount := 1, heap_value := .int 2147483647 }
      { refcount := 1, heap_value := .int 2147483647 } rfl rfl rfl rfl).2.1
      (by decide)⟩

/-- C8: `Get` on a tuple of length `n` with integer index `i` returns the
address stored in field `i` with the evaluator (heap and refcounts)
entirely unchanged whenever `0 ≤ i < n` (so `i = n - 1` is valid), and
aborts with the fatal out-of-range diagnostic whenever `n ≤ i` (so
`i = n` is fatal). -/
theorem get_field_or_fatal (ev : InstructionEvaluator) (la ra : HeapAddress)
    (t : Tuple) (i : Int) (cl cr : RefCountedHeapValue)
    (hl : memLookup ev.heap.memory la = some cl)
    (hvl : cl.heap_value = .tuple t)
    (hr : memLookup ev.heap.memory ra = some cr)
    (hvr : cr.heap_value = .int i) :
    (∀ hp : 0 ≤ i ∧ i.toNat < t.field_values.length,
      ev.eval_binop .get la ra =
        Except.ok (t.field_values.get ⟨i.toNat, hp.2⟩, ev)) ∧
    ((t.field_values.length : Int) ≤ i →
      ev.eval_binop .get la ra = Except.error "field index out of range") := by
  constructor
  · intro hp
    simp [InstructionEvaluator.eval_binop, Heap.deref, hl, hr, hvl, hvr,
      HeapValue.check_tuple, HeapValue.check_int, hp.1, hp.2]
  · intro hge
    have h1 : ¬ (0 ≤ i ∧ i.toNat < t.field_values.length) := by
      rintro ⟨hpos, hlt⟩
      omega
    simp [InstructionEvaluator.eval_binop, Heap.deref, hl, hr, hvl, hvr,
      HeapValue.check_tuple, HeapValue.check_int, h1]

/-- C8 witness: on `getEv`, `Get` at index `1 = length - 1` returns field
1 unchanged, and at index `2 = length` it is fatal. -/
theorem get_field_or_fatal_witness :
    (getEv.eval_binop .get 0 3 = Except.ok (2, getEv)) ∧
    (getEv.eval_binop .get 0 4 =
      Except.error "field index out of range") :=
  ⟨(get_field_or_fatal getEv 0 3 { field_values := [1, 2] } 1
      { refcount := 1, heap_value := .tuple { field_values := [1, 2] } }
      { refcount := 1, heap_value := .int 1 } rfl rfl rfl rfl).1
      ⟨by decide, by decide⟩,
   (get_field_or_fatal getEv 0 4 { field_values := [1, 2] } 2
      { refcount := 1, heap_value := .tuple { field_values := [1, 2] } }
      { refcount := 1, heap_value := .int 2 } rfl rfl rfl rfl).2 (by decide)⟩

/-- C7: evaluating `Simple::Set` increments the new value's refcount
before decrementing the old field's; when the resolved new-value address
equals the old field address and the cell is live (refcount ≥ 1), the
cell is never freed by the operation and its refcount is unchanged. -/
theorem set_new_eq_old_keeps_cell (ev : InstructionEvaluator)
    (tref nref : VariableReference) (idx : Nat) (ta na : HeapAddress)
    (ct cn : RefCountedHeapValue) (t : Tuple)
    (hlt : ev.stack.lookup_var tref.var_name = .ok ta)
    (hln : ev.stack.lookup_var nref.var_name = .ok na)
    (hmt : memLookup ev.heap.memory ta = some ct)
    (hvt : ct.heap_value = .tuple t)
    (hidx : idx < t.field_values.length)
    (hold : t.field_values.get ⟨idx, hidx⟩ = na)
    (hmn : memLookup ev.heap.memory na = some cn)
    (hrc : 1 ≤ cn.refcount)
    (hfresh : na ≠ ev.heap.heap_next_address) :
    ∃ a ev' rc', ev.eval_simple (.set tref idx nref) = .ok (a, ev') ∧
      memLookup ev'.heap.memory na = some rc' ∧
      rc'.refcount = cn.refcount := by
  have hold' : ∀ (h : idx < t.field_values.length),
      t.field_values.get ⟨idx, h⟩ = na := fun _ => hold
  have hrcne : cn.refcount ≠ 0 := by omega
  by_cases hta : na = ta
  · subst hta
    rw [hmt] at hmn
    have hct : ct = cn := by injection hmn
    subst hct
    set t1 : Tuple := { field_values := t.field_values.set idx na } with ht1
    have hm1 : memLookup (memSet ev.heap.memory na
        { ct with heap_value := .tuple t1 }) na =
        some { ct with heap_value := .tuple t1 } :=
      memLookup_memSet_self _ _ _ _ hmt
    have hm2 : memLookup (memSet (memSet ev.heap.memory na
        { ct with heap_value := .tuple t1 }) na
        { refcount := ct.refcount + 1, heap_value := .tuple t1 }) na =
        some { refcount := ct.refcount + 1, heap_value := .tuple t1 } :=
      memLookup_memSet_self _ _ _ _ hm1
    have hm3 : memLookup (memSet (memSet (memSet ev.heap.memory na
        { ct with heap_value := .tuple t1 }) na
        { refcount := ct.refcount + 1, heap_value := .tuple t1 }) na
        { refcount := ct.refcount, heap_value := .tuple t1 }) na =
        some { refcount := ct.refcount, heap_value := .tuple t1 } :=
      memLookup_memSet_self _ _ _ _ hm2
    refine ⟨ev.heap.heap_next_address,
      { ev with heap :=
          { memory := (ev.heap.heap_next_address,
              { refcount := 0, heap_value := .tuple { field_values := [] } }) ::
              memSet (memSet (memSet ev.heap.memory na
                { ct with heap_value := .tuple t1 }) na
                { refcount := ct.refcount + 1, heap_value := .tuple t1 }) na
                { refcount := ct.refcount, heap_value := .tuple t1 }
            heap_next_address := ev.heap.heap_next_address + 1 } },
      { refcount := ct.refcount, heap_value := .tuple t1 }, ?_, ?_, rfl⟩
    · simp only [InstructionEvaluator.eval_simple,
        InstructionEvaluator.eval_var, hlt, hln, Heap.deref, hmt, hvt,
        HeapValue.check_tuple, hidx, dite_true, hold']
      simp only [Heap.inc_refcount, hm1, Heap.dec_refcount, decRefcountFuel,
        hm2, Heap.alloc]
      simp [hrcne]
    · simp only [memLookup, if_neg (Ne.symm hfresh)]
      exact hm3
  · have hne : na ≠ ta := hta
    set t1 : Tuple := { field_values := t.field_values.set idx na } with ht1
    have hm1 : memLookup (memSet ev.heap.memory ta
        { ct with heap_value := .tuple t1 }) na = some cn := by
      rw [memLookup_memSet_ne _ _ _ _ hne]; exact hmn
    have hm2 : memLookup (memSet (memSet ev.heap.memory ta
        { ct with heap_value := .tuple t1 }) na
        { cn with refcount := cn.refcount + 1 }) na =
        some { cn with refcount := cn.refcount + 1 } :=
      memLookup_memSet_self _ _ _ _ hm1
    have hm3 : memLookup (memSet (memSet (memSet ev.heap.memory ta
        { ct with heap_value := .tuple t1 }) na
        { cn with refcount := cn.refcount + 1 }) na
        { cn with refcount := cn.refcount }) na =
        some { cn with refcount := cn.refcount } :=
      memLookup_memSet_self _ _ _ _ hm2
    refine ⟨ev.heap.heap_next_address,
      { ev with heap :=
          { memory := (ev.heap.heap_next_address,
              { refcount := 0, heap_value := .tuple { field_values := [] } }) ::
              memSet (memSet (memSet ev.heap.memory ta
                { ct with heap_value := .tuple t1 }) na
                { cn with refcount := cn.refcount + 1 }) na
                { cn with refcount := cn.refcount }
            heap_next_address := ev.heap.heap_next_address + 1 } },
      { cn with refcount := cn.refcount }, ?_, ?_, rfl⟩
    · simp only [InstructionEvaluator.eval_simple,
        InstructionEvaluator.eval_var, hlt, hln, Heap.deref, hmt, hvt,
        HeapValue.check_tuple, hidx, dite_true, hold']
      simp only [Heap.inc_refcount, hm1, Heap.dec_refcount, decRefcountFuel,
        hm2, Heap.alloc]
      simp [hrcne]
    · simp only [memLookup, if_neg (Ne.symm hfresh)]
      exact hm3

/-- C7 witness: `Set(t, 0, x)` where `x` already is field 0 leaves the
cell at address 1 alive with refcount 1. -/
theorem set_new_eq_old_keeps_cell_witness :
    ∃ a ev' rc',
      setEv.eval_simple (.set { var_name := "t" } 0 { var_name := "x" }) =
        .ok (a, ev') ∧
      memLookup ev'.heap.memory 1 = some rc' ∧
      rc'.refcount = 1 :=
  set_new_eq_old_keeps_cell setEv { var_name := "t" } { var_name := "x" } 0
    0 1 { refcount := 1, heap_value := .tuple { field_values := [1] } }
    { refcount := 1, heap_value := .int 5 } { field_values := [1] }
    rfl rfl rfl rfl (by decide) rfl rfl (by decide) (by decide)

theorem countOcc_pos_of_mem {a : HeapAddress} {vs : List HeapAddress}
    (h : a ∈ vs) : 1 ≤ countOcc a vs := by
  induction vs with
  | nil => cases h
  | cons b rest ih =>
    rcases List.mem_cons.mp h with h1 | h2
    · simp [countOcc, h1]
    · have := ih h2
      simp [countOcc]; omega

theorem countOcc_cons_self (a : HeapAddress) (rest : List HeapAddress) :
    countOcc a (a :: rest) = countOcc a rest + 1 := by
  show (if a = a then 1 else 0) + countOcc a rest = countOcc a rest + 1
  simp; omega

theorem countOcc_cons_of_ne (a v : HeapAddress) (rest : List HeapAddress)
    (h : v ≠ a) : countOcc a (v :: rest) = countOcc a rest := by
  show (if v = a then 1 else 0) + countOcc a rest = countOcc a rest
  simp [h]

theorem countOcc_le_cons (b v : HeapAddress) (rest : List HeapAddress) :
    countOcc b rest ≤ countOcc b (v :: rest) := by
  show countOcc b rest ≤ (if v = b then 1 else 0) + countOcc b rest
  split <;> omega

/-- Releasing a block frame's locals keeps the address `a` allocated when
`a` holds strictly more references than its occurrences in the list and
every other released local is a live leaf holding at least as many
references as its occurrences. -/
theorem decBlockValues_keeps (vs : List HeapAddress) (h : Heap)
    (a : HeapAddress) (ca : RefCountedHeapValue)
    (hmem : memLookup h.memory a = some ca)
    (hcount : countOcc a vs < ca.refcount)
    (hothers : ∀ b ∈ vs, b ≠ a → ∃ cb, memLookup h.memory b = some cb ∧
      cb.heap_value.isLeaf = true ∧ countOcc b vs ≤ cb.refcount) :
    ∃ h', decBlockValues h vs = .ok h' ∧
      memLookup h'.memory a =
        some { ca with refcount := ca.refcount - countOcc a vs } := by
  induction vs generalizing h ca with
  | nil =>
    refine ⟨h, rfl, ?_⟩
    simpa [countOcc] using hmem
  | cons v rest ih =>
    by_cases hv : v = a
    · subst hv
      have hcnt1 : countOcc v (v :: rest) = countOcc v rest + 1 :=
        countOcc_cons_self v rest
      have hrc2 : 2 ≤ ca.refcount := by
        rw [hcnt1] at hcount; omega
      have hrcne : ca.refcount ≠ 0 := by omega
      have hnewne : ca.refcount - 1 ≠ 0 := by omega
      have hmem1 : memLookup (memSet h.memory v ({ ca with refcount := ca.refcount - 1 })) v =
          some { ca with refcount := ca.refcount - 1 } :=
        memLookup_memSet_self _ _ _ _ hmem
      have hstep : h.dec_refcount v =
          .ok { h with memory := memSet h.memory v ({ ca with refcount := ca.refcount - 1 }) } := by
        simp [Heap.dec_refcount, decRefcountFuel, hmem, hrcne, hnewne]
      obtain ⟨h', hdec, hlook⟩ := ih
        { h with memory := memSet h.memory v ({ ca with refcount := ca.refcount - 1 }) }
        { ca with refcount := ca.refcount - 1 }
        hmem1
        (by
          show countOcc v rest < ca.refcount - 1
          rw [hcnt1] at hcount; omega)
        (by
          intro b hb hba
          obtain ⟨cb, hcb, hleaf, hcnt⟩ :=
            hothers b (List.mem_cons_of_mem _ hb) hba
          refine ⟨cb, ?_, hleaf, ?_⟩
          · rw [memLookup_memSet_ne _ _ _ _ hba]; exact hcb
          · have hle : countOcc b rest ≤ countOcc b (v :: rest) :=
              countOcc_le_cons b v rest
            omega)
      refine ⟨h', ?_, ?_⟩
      · simp [decBlockValues, hstep, hdec]
      · rw [hlook, hcnt1]
        have harith : ca.refcount - 1 - countOcc v rest =
            ca.refcount - (countOcc v rest + 1) := by omega
        simp only [harith]
    · obtain ⟨cb, hcb, hleaf, hcnt⟩ :=
        hothers v (List.mem_cons_self v rest) hv
      have hv1 : 1 ≤ countOcc v (v :: rest) := by
        rw [countOcc_cons_self]; omega
      have hrcbne : cb.refcount ≠ 0 := by omega
      have hcntv : countOcc v (v :: rest) = countOcc v rest + 1 :=
        countOcc_cons_self v rest
      have hav : a ≠ v := fun h' => hv h'.symm
      have hceq : countOcc a rest = countOcc a (v :: rest) :=
        (countOcc_cons_of_ne a v rest hv).symm
      by_cases hzero : cb.refcount - 1 = 0
      · -- the sibling leaf is freed; it cannot occur again in `rest`
        have hrcb1 : cb.refcount = 1 := by omega
        have hnotin : v ∉ rest := by
          intro hin
          have := countOcc_pos_of_mem hin
          rw [hcntv] at hcnt
          omega
        have hmem1 : memLookup (memSet h.memory v ({ cb with refcount := cb.refcount - 1 })) v =
            some { cb with refcount := cb.refcount - 1 } :=
          memLookup_memSet_self _ _ _ _ hcb
        have hstep : h.dec_refcount v =
            .ok { h with memory := memRemove (memSet h.memory v ({ cb with refcount := cb.refcount - 1 })) v } := by
          cases hval : cb.heap_value with
          | int n =>
            have hm : memLookup (memSet h.memory v
                { refcount := 0, heap_value := HeapValue.int n }) v =
                some { refcount := 0, heap_value := HeapValue.int n } :=
              memLookup_memSet_self _ _ _ _ hcb
            simp [Heap.dec_refcount, decRefcountFuel, hcb, hrcbne, hzero,
              freeF, hval, hm]
          | bool b0 =>
            have hm : memLookup (memSet h.memory v
                { refcount := 0, heap_value := HeapValue.bool b0 }) v =
                some { refcount := 0, heap_value := HeapValue.bool b0 } :=
              memLookup_memSet_self _ _ _ _ hcb
            simp [Heap.dec_refcount, decRefcountFuel, hcb, hrcbne, hzero,
              freeF, hval, hm]
          | tuple t => rw [hval] at hleaf; simp [HeapValue.isLeaf] at hleaf
          | closure c => rw [hval] at hleaf; simp [HeapValue.isLeaf] at hleaf
        have hmema : memLookup (memRemove (memSet h.memory v
            ({ cb with refcount := cb.refcount - 1 })) v) a = some ca := by
          rw [memLookup_memRemove_ne _ _ _ hav,
            memLookup_memSet_ne _ _ _ _ hav]
          exact hmem
        obtain ⟨h', hdec, hlook⟩ := ih
          { h with memory := memRemove (memSet h.memory v ({ cb with refcount := cb.refcount - 1 })) v }
          ca hmema
          (by
            show countOcc a rest < ca.refcount
            omega)
          (by
            intro b hb hba
            have hbv : b ≠ v := fun h' => hnotin (h' ▸ hb)
            obtain ⟨cb', hcb', hleaf', hcnt'⟩ :=
              hothers b (List.mem_cons_of_mem _ hb) hba
            refine ⟨cb', ?_, hleaf', ?_⟩
            · show memLookup (memRemove (memSet h.memory v ({ cb with refcount := cb.refcount - 1 })) v) b = some cb'
              rw [memLookup_memRemove_ne _ _ _ hbv,
                memLookup_memSet_ne _ _ _ _ hbv]
              exact hcb'
            · have hle : countOcc b rest ≤ countOcc b (v :: rest) :=
                countOcc_le_cons b v rest
              omega)
        refine ⟨h', ?_, ?_⟩
        · simp [decBlockValues, hstep, hdec]
        · simp only [hlook, ← hceq]
      · -- the sibling keeps a positive count: plain decrement
        have hmem1 : memLookup (memSet h.memory v ({ cb with refcount := cb.refcount - 1 })) v =
            some { cb with refcount := cb.refcount - 1 } :=
          memLookup_memSet_self _ _ _ _ hcb
        have hstep : h.dec_refcount v =
            .ok { h with memory := memSet h.memory v ({ cb with refcount := cb.refcount - 1 }) } := by
          simp [Heap.dec_refcount, decRefcountFuel, hcb, hrcbne, hzero]
        have hmema : memLookup (memSet h.memory v
            ({ cb with refcount := cb.refcount - 1 })) a = some ca := by
          rw [memLookup_memSet_ne _ _ _ _ hav]; exact hmem
        obtain ⟨h', hdec, hlook⟩ := ih
          { h with memory := memSet h.memory v ({ cb with refcount := cb.refcount - 1 }) }
          ca hmema
          (by
            show countOcc a rest < ca.refcount
            omega)
          (by
            intro b hb hba
            by_cases hbv : b = v
            · subst hbv
              refine ⟨{ cb with refcount := cb.refcount - 1 }, hmem1, hleaf, ?_⟩
              show countOcc b rest ≤ cb.refcount - 1
              rw [hcntv] at hcnt
              omega
            · obtain ⟨cb', hcb', hleaf', hcnt'⟩ :=
                hothers b (List.mem_cons_of_mem _ hb) hba
              refine ⟨cb', ?_, hleaf', ?_⟩
              · rw [memLookup_memSet_ne _ _ _ _ hbv]; exact hcb'
              · have hle : countOcc b rest ≤ countOcc b (v :: rest) :=
                  countOcc_le_cons b v rest
                omega)
        refine ⟨h', ?_, ?_⟩
        · simp [decBlockValues, hstep, hdec]
        · simp only [hlook, ← hceq]

/-- After `set_var`, the bound name resolves to the stored address in the
same block frame. -/
theorem BlockFrame.lookup_set_var (bf : BlockFrame) (n : String)
    (a : HeapAddress) : (bf.set_var n a).lookup_var n = some a := by
  simp only [BlockFrame.set_var, BlockFrame.lookup_var, mapInsert, mapLookup,
    if_pos rfl, if_true]
  simp [List.get?_eq_getElem?, List.getElem?_concat_length]

/-- C3: an `ExitBlock` step whose popped frame carries return info first
re-roots the result (looked up in the popped frame) into the caller's
current block frame via `set_var`, and only afterwards decrements the
popped frame's locals; hence a result that is one of the popped locals
with refcount 1 (the other released locals being live leaves) is still
allocated after the step — with refcount 1 and bound to the return-info
variable in the caller. -/
theorem exit_block_reroots_result_before_release
    (pe : ProgramEvaluator) (v : VariableReference) (bf : BlockFrame)
    (bf2 : BlockFrame) (bfs : List BlockFrame) (fs : List CallStackFrame)
    (stack1 : Stack) (ri : ReturnInfo) (a : HeapAddress)
    (ca : RefCountedHeapValue)
    (hinstr : pe.program.get_instruction pe.program_counter =
      .ok (.exitBlock v))
    (hpop : pe.instruction_evaluator.stack.exit_block = .ok (bf, stack1))
    (hshape : stack1.frames = { nested_block_frames := bf2 :: bfs } :: fs)
    (hri : bf.return_info = some ri)
    (hlook : bf.lookup_var v.var_name = some a)
    (hmem : memLookup pe.instruction_evaluator.heap.memory a = some ca)
    (hrc : ca.refcount = 1)
    (hcnt : countOcc a bf.values = 1)
    (hothers : ∀ b ∈ bf.values, b ≠ a →
      ∃ cb, memLookup pe.instruction_evaluator.heap.memory b = some cb ∧
        cb.heap_value.isLeaf = true ∧ countOcc b bf.values ≤ cb.refcount) :
    ∃ pe', pe.step = .ok (none, pe') ∧
      (∃ ca', memLookup pe'.instruction_evaluator.heap.memory a = some ca' ∧
        ca'.refcount = 1) ∧
      pe'.instruction_evaluator.stack.lookup_var ri.result_variable = .ok a ∧
      pe'.program_counter = ri.return_address := by
  have hmemInc : memLookup (memSet pe.instruction_evaluator.heap.memory a
      ({ ca with refcount := ca.refcount + 1 })) a =
      some { ca with refcount := ca.refcount + 1 } :=
    memLookup_memSet_self _ _ _ _ hmem
  obtain ⟨h', hdec, hlooka⟩ := decBlockValues_keeps bf.values
    { pe.instruction_evaluator.heap with
        memory := memSet pe.instruction_evaluator.heap.memory a ({ ca with refcount := ca.refcount + 1 }) }
    a { ca with refcount := ca.refcount + 1 }
    hmemInc
    (by show countOcc a bf.values < ca.refcount + 1; omega)
    (by
      intro b hb hba
      obtain ⟨cb, hcb, hlf, hc⟩ := hothers b hb hba
      refine ⟨cb, ?_, hlf, hc⟩
      rw [memLookup_memSet_ne _ _ _ _ hba]
      exact hcb)
  refine ⟨{ program := pe.program
            instruction_evaluator :=
              { heap := h'
                stack := { frames :=
                  { nested_block_frames :=
                      bf2.set_var ri.result_variable a :: bfs } :: fs } }
            program_counter := ri.return_address }, ?_, ?_, ?_, rfl⟩
  · simp only [ProgramEvaluator.step, hinstr, hpop, hlook, hri,
      InstructionEvaluator.set_var, Heap.inc_refcount, hmem,
      Stack.set_var_no_refcount, hshape, CallStackFrame.set_var_no_refcount,
      hdec]
  · refine ⟨{ ca with refcount := ca.refcount + 1 - countOcc a bf.values },
      hlooka, ?_⟩
    show ca.refcount + 1 - countOcc a bf.values = 1
    omega
  · simp only [Stack.lookup_var, CallStackFrame.lookup_var, lookupVarBlocks,
      BlockFrame.lookup_set_var bf2 ri.result_variable a]

theorem exit_block_reroots_result_before_release_witness :
    ∃ pe', exitPE.step = .ok (none, pe') ∧
      (∃ ca', memLookup pe'.instruction_evaluator.heap.memory 0 = some ca' ∧
        ca'.refcount = 1) ∧
      pe'.instruction_evaluator.stack.lookup_var "r" = .ok 0 ∧
      pe'.program_counter =
        { function_index := 0, block_index := 0, instruction_index := 2 } :=
  exit_block_reroots_result_before_release exitPE { var_name := "x" }
    exitBF rootBF [] [] { frames := [{ nested_block_frames := [rootBF] }] }
    exitRI 0 { refcount := 1, heap_value := .int 9 }
    rfl rfl rfl rfl rfl rfl rfl rfl
    (by
      intro b hb hba
      rcases List.mem_cons.mp hb with h0 | h1
      · exact absurd h0 hba
      · rcases List.mem_cons.mp h1 with h2 | h3
        · subst h2
          exact ⟨{ refcount := 1, heap_value := .int 8 }, rfl, rfl, by decide⟩
        · cases h3)

/-! ### List helpers -/

theorem listGet?_set_eq (l : List α) (i : Nat) (a : α) (h : i < l.length) :
    (l.set i a).get? i = some a := by
  induction l generalizing i with
  | nil => simp at h
  | cons x xs ih =>
    cases i with
    | zero => simp
    | succ n => simpa using ih n (by simp at h; omega)

theorem listGet?_set_ne (l : List α) (i j : Nat) (a : α) (h : j ≠ i) :
    (l.set i a).get? j = l.get? j := by
  induction l generalizing i j with
  | nil => simp
  | cons x xs ih =>
    cases i with
    | zero => cases j with
      | zero => exact absurd rfl h
      | succ m => simp
    | succ n => cases j with
      | zero => simp
      | succ m => simpa using ih n m (fun hc => h (by omega))

theorem listGet?_append_left (l : List α) (x : α) (k : Nat)
    (h : k < l.length) : (l ++ [x]).get? k = l.get? k := by
  induction l generalizing k with
  | nil => simp at h
  | cons y ys ih =>
    cases k with
    | zero => simp
    | succ n => simpa using ih n (by simp at h; omega)

theorem listGet?_append_length (l : List α) (x : α) :
    (l ++ [x]).get? l.length = some x := by
  induction l with
  | nil => simp
  | cons y ys ih => simp [ih]

theorem listGet?_lt_length {l : List α} {k : Nat} {a : α}
    (h : l.get? k = some a) : k < l.length := by
  by_contra hlt
  rw [List.get?_eq_none.mpr (by omega)] at h
  cases h

theorem listGet?_ge_none (l : List α) (k : Nat) (h : l.length ≤ k) :
    l.get? k = none :=
  List.get?_eq_none.mpr h

/-! ### Monotonicity of the invariants along preserved programs -/

theorem ClosOK_mono {p q : Program} (hpq : PreservesDone p q)
    {ac : AllocClosure} (h : ClosOK p ac) : ClosOK q ac := by
  obtain ⟨f', hf', hfn, hname, hargs, hbi, hii⟩ := h
  exact ⟨f', hpq _ _ hf' (by simp [hfn]), hfn, hname, hargs, hbi, hii⟩

theorem DefOK_mono {p q : Program} (hpq : PreservesDone p q)
    {d : Definition} (h : DefOK p d) : DefOK q d :=
  fun ac hac => ClosOK_mono hpq (h ac hac)

theorem InstrOK_mono {p q : Program} (hpq : PreservesDone p q)
    {i : Instruction} (h : InstrOK p i) : InstrOK q i :=
  fun a ha => DefOK_mono hpq (h a ha)

theorem DoneFun_mono {p q : Program} (hpq : PreservesDone p q)
    {f : Function} (h : DoneFun p f) : DoneFun q f :=
  ⟨h.1, fun b hb => ⟨(h.2 b hb).1,
    fun i hi => InstrOK_mono hpq ((h.2 b hb).2 i hi)⟩⟩

theorem PreservesDone.rfl (p : Program) : PreservesDone p p :=
  fun _ _ h _ => h

theorem PreservesDone.chain {p q r : Program} (h1 : PreservesDone p q)
    (h2 : PreservesDone q r) : PreservesDone p r := by
  intro k f hk hne
  exact h2 k f (h1 k f hk hne) hne

/-- A `RhsPost` leaves done functions untouched (the current function has
no committed free names, every other old function is unchanged, new
functions did not exist before). -/
theorem RhsPost.preservesDone {fi bi : Nat} {f : Function} {b : Block}
    {s s₁ : NormState} (hf : s.program.functions.get? fi = some f)
    (hnone : f.free_names = none) (hp : RhsPost fi bi f b s s₁) :
    PreservesDone s.program s₁.program := by
  intro k fk hk hne
  have hklen : k < s.program.functions.length := listGet?_lt_length hk
  by_cases hkfi : k = fi
  · subst hkfi
    rw [hk] at hf
    injection hf with hf
    rw [← hf] at hnone
    exact absurd hnone hne
  · rw [hp.others k hklen hkfi]
    exact hk

/-! ### Pure helper steps leave the program and cursors unchanged -/

theorem freshName_state (base : String) (s : NormState) :
    ((freshName base s).2.program = s.program ∧
     (freshName base s).2.current_function_index = s.current_function_index ∧
     (freshName base s).2.current_block_index = s.current_block_index ∧
     (freshName base s).2.var_substitution = s.var_substitution) := by
  simp [freshName]

theorem freshArgs_go_state (rev_names : List String) (s : NormState) :
    ((freshArgs.go rev_names s).2.program = s.program ∧
     (freshArgs.go rev_names s).2.current_function_index =
       s.current_function_index ∧
     (freshArgs.go rev_names s).2.current_block_index =
       s.current_block_index) := by
  induction rev_names generalizing s with
  | nil => simp [freshArgs.go]
  | cons x xs ih =>
    simp only [freshArgs.go]
    obtain ⟨h1, h2, h3⟩ := ih { s with var_counter := s.var_counter + 1 }
    simp [freshName, h1, h2, h3]

theorem freshArgs_state (names : List String) (s : NormState) :
    ((freshArgs names s).2.program = s.program ∧
     (freshArgs names s).2.current_function_index =
       s.current_function_index ∧
     (freshArgs names s).2.current_block_index = s.current_block_index) := by
  simp only [freshArgs]
  obtain ⟨h1, h2, h3⟩ := freshArgs_go_state names.reverse s
  constructor
  · exact h1
  · exact ⟨h2, h3⟩

theorem substSaveInsert_state (from_ to_ : String) (s : NormState) :
    ((substSaveInsert from_ to_ s).2.program = s.program ∧
     (substSaveInsert from_ to_ s).2.current_function_index =
       s.current_function_index ∧
     (substSaveInsert from_ to_ s).2.current_block_index =
       s.current_block_index) := by
  simp [substSaveInsert]

theorem substSaveInsertAll_state (subs : List (String × String))
    (s : NormState) :
    ((substSaveInsertAll subs s).2.program = s.program ∧
     (substSaveInsertAll subs s).2.current_function_index =
       s.current_function_index ∧
     (substSaveInsertAll subs s).2.current_block_index =
       s.current_block_index) := by
  induction subs generalizing s with
  | nil => simp [substSaveInsertAll]
  | cons p rest ih =>
    obtain ⟨from_, to_⟩ := p
    simp only [substSaveInsertAll]
    obtain ⟨h1, h2, h3⟩ := ih (substSaveInsert from_ to_ s).2
    simp [substSaveInsert] at h1 h2 h3
    simp [substSaveInsert, h1, h2, h3]

theorem substRestore_state (from_ : String) (old : Option String)
    (s : NormState) :
    ((substRestore from_ old s).program = s.program ∧
     (substRestore from_ old s).current_function_index =
       s.current_function_index ∧
     (substRestore from_ old s).current_block_index =
       s.current_block_index) := by
  cases old <;> simp [substRestore]

theorem substRestoreAll_state (saves : List (String × Option String))
    (s : NormState) :
    ((substRestoreAll saves s).program = s.program ∧
     (substRestoreAll saves s).current_function_index =
       s.current_function_index ∧
     (substRestoreAll saves s).current_block_index =
       s.current_block_index) := by
  induction saves generalizing s with
  | nil => simp [substRestoreAll]
  | cons p rest ih =>
    obtain ⟨from_, old⟩ := p
    simp only [substRestoreAll]
    obtain ⟨h1, h2, h3⟩ := ih s
    obtain ⟨g1, g2, g3⟩ := substRestore_state from_ old (substRestoreAll rest s)
    simp [g1, g2, g3, h1, h2, h3]

/-! ### Open blocks extend by assignments; the identity post -/

theorem OpenBlock_append (b : Block) (tail : List Instruction)
    (hb : OpenBlock b) (ht : ∀ i ∈ tail, isAssignmentInstr i) :
    OpenBlock { b with instructions := b.instructions ++ tail } := by
  obtain ⟨mid, hmid, hall⟩ := hb
  refine ⟨mid ++ tail, ?_, ?_⟩
  · simp [hmid]
  · intro i hi
    rcases List.mem_append.mp hi with h1 | h2
    · exact hall i h1
    · exact ht i h2

/-- A step that leaves the program untouched (fresh names, substitution
bookkeeping) satisfies the `normalize_rhs` postcondition. -/
theorem RhsPost.of_programEq {fi bi : Nat} {f : Function} {b : Block}
    {s s₁ : NormState} (hco : CurOpen s fi bi f b)
    (hprog : s₁.program = s.program)
    (hcfi : s₁.current_function_index = some fi)
    (hcbi : s₁.current_block_index = some bi) :
    RhsPost fi bi f b s s₁ := by
  obtain ⟨_, _, hf, hnone, hb, hob⟩ := hco
  constructor
  · exact hcfi
  · exact hcbi
  · rw [hprog]
  · intro k _ _
    rw [hprog]
  · refine ⟨f, b, [], ?_, rfl, rfl, hnone, le_refl _, ?_, ?_, hb, rfl,
      by simp, by simp⟩
    · rw [hprog]; exact hf
    · intro l _ _
      rfl
    · intro l bl hl hbl
      rw [listGet?_ge_none f.blocks l hl] at hbl
      cases hbl
  · intro k fk hk hfk
    rw [hprog] at hfk
    rw [listGet?_ge_none _ _ hk] at hfk
    cases hfk

/-! ### The effect of `emit` -/

theorem setFunction_get_self (p : Program) (i : Nat) (f : Function)
    (h : i < p.functions.length) :
    (setFunction p i f).functions.get? i = some f :=
  listGet?_set_eq _ _ _ h

theorem setFunction_get_ne (p : Program) (i j : Nat) (f : Function)
    (h : j ≠ i) :
    (setFunction p i f).functions.get? j = p.functions.get? j :=
  listGet?_set_ne _ _ _ _ h

theorem setFunction_length (p : Program) (i : Nat) (f : Function) :
    (setFunction p i f).functions.length = p.functions.length := by
  simp [setFunction]

theorem emit_eq (s : NormState) (fi bi : Nat) (f₁ : Function) (b₁ : Block)
    (instr : Instruction)
    (hcfi : s.current_function_index = some fi)
    (hcbi : s.current_block_index = some bi)
    (hf : s.program.functions.get? fi = some f₁)
    (hb : f₁.blocks.get? bi = some b₁) :
    emit instr s = .ok { s with program := setFunction s.program fi { f₁ with blocks := f₁.blocks.set bi { b₁ with instructions := b₁.instructions ++ [instr] } } } := by
  simp only [emit, hcfi, hcbi, hf, hb]

/-- Emitting an assignment extends the current block and nothing else. -/
theorem emit_assignment_post (s : NormState) (fi bi : Nat) (f₁ : Function)
    (b₁ : Block) (a : Assignment)
    (hcfi : s.current_function_index = some fi)
    (hcbi : s.current_block_index = some bi)
    (hf : s.program.functions.get? fi = some f₁)
    (hnone : f₁.free_names = none)
    (hb : f₁.blocks.get? bi = some b₁)
    (hd : DefOK s.program a.definition) :
    RhsPost fi bi f₁ b₁ s { s with program := setFunction s.program fi { f₁ with blocks := f₁.blocks.set bi { b₁ with instructions := b₁.instructions ++ [.assignment a] } } } := by
  have hfl : fi < s.program.functions.length := listGet?_lt_length hf
  have hbl : bi < f₁.blocks.length := listGet?_lt_length hb
  refine ⟨hcfi, hcbi, by rw [setFunction_length],
    fun k _ hk => setFunction_get_ne _ _ _ _ hk, ?_, ?_⟩
  · refine ⟨{ f₁ with blocks := f₁.blocks.set bi { b₁ with instructions := b₁.instructions ++ [.assignment a] } },
      { b₁ with instructions := b₁.instructions ++ [.assignment a] },
      [.assignment a], setFunction_get_self _ _ _ hfl, rfl, rfl, hnone,
      by simp, fun l _ hl => listGet?_set_ne _ _ _ _ hl, ?_,
      listGet?_set_eq _ _ _ (by simpa using hbl), rfl, rfl, ?_⟩
    · intro l bl hl hbl2
      simp only [List.length_set] at hl ⊢
      rw [listGet?_ge_none _ _ (by simpa using hl)] at hbl2
      cases hbl2
    · intro i hi
      rcases List.mem_singleton.mp hi with rfl
      refine ⟨trivial, ?_⟩
      intro a2 ha2
      injection ha2 with ha2
      rw [← ha2]
      refine DefOK_mono ?_ hd
      intro k fk hk hne
      by_cases hkfi : k = fi
      · subst hkfi
        rw [hk] at hf
        injection hf with hf
        rw [← hf] at hnone
        simp [hnone] at hne
      · rw [setFunction_get_ne _ _ _ _ hkfi]
        exact hk
  · intro k fk hk hfk
    rw [listGet?_ge_none _ _ (by simp only [setFunction_length]; exact hk)]
      at hfk
    cases hfk

/-! ### Composing postconditions -/

theorem RhsPost.comp {fi bi : Nat} {f f₁ : Function} {b b₁ : Block}
    {s s' s₁ : NormState}
    (hf : s.program.functions.get? fi = some f)
    (hb : f.blocks.get? bi = some b)
    (h1 : RhsPost fi bi f b s s')
    (hf₁ : s'.program.functions.get? fi = some f₁)
    (hb₁ : f₁.blocks.get? bi = some b₁)
    (h2 : RhsPost fi bi f₁ b₁ s' s₁) :
    RhsPost fi bi f b s s₁ := by
  have hfi_lt : fi < s.program.functions.length := listGet?_lt_length hf
  have hbi_lt : bi < f.blocks.length := listGet?_lt_length hb
  obtain ⟨f₁', b₁', tail₁, hgf₁', hname₁, hargs₁, hnone₁, hblen₁, hold₁,
    hnew₁, hgb₁', hpar₁, hins₁, htail₁⟩ := h1.cur
  rw [hgf₁'] at hf₁
  injection hf₁ with hf₁
  subst hf₁
  rw [hgb₁'] at hb₁
  injection hb₁ with hb₁
  subst hb₁
  obtain ⟨f₂, b₂, tail₂, hgf₂, hname₂, hargs₂, hnone₂, hblen₂, hold₂,
    hnew₂, hgb₂, hpar₂, hins₂, htail₂⟩ := h2.cur
  have hpres2 : PreservesDone s'.program s₁.program :=
    h2.preservesDone hgf₁' hnone₁
  constructor
  · exact h2.cfi
  · exact h2.cbi
  · exact le_trans h1.len h2.len
  · intro k hk hkfi
    rw [h2.others k (lt_of_lt_of_le hk h1.len) hkfi]
    exact h1.others k hk hkfi
  · refine ⟨f₂, b₂, tail₁ ++ tail₂, hgf₂, by rw [hname₂, hname₁],
      by rw [hargs₂, hargs₁], hnone₂, le_trans hblen₁ hblen₂, ?_, ?_, hgb₂,
      by rw [hpar₂, hpar₁], by rw [hins₂, hins₁, List.append_assoc], ?_⟩
    · intro l hl hlbi
      rw [hold₂ l (lt_of_lt_of_le hl hblen₁) hlbi]
      exact hold₁ l hl hlbi
    · intro l bl hl hbl
      by_cases hl2 : f₁'.blocks.length ≤ l
      · exact hnew₂ l bl hl2 hbl
      · have hlbi : l ≠ bi := by omega
        rw [hold₂ l (by omega) hlbi] at hbl
        obtain ⟨hc, hio⟩ := hnew₁ l bl hl hbl
        exact ⟨hc, fun i hi => InstrOK_mono hpres2 (hio i hi)⟩
    · intro i hi
      rcases List.mem_append.mp hi with h1m | h2m
      · obtain ⟨ha, hio⟩ := htail₁ i h1m
        exact ⟨ha, InstrOK_mono hpres2 hio⟩
      · exact htail₂ i h2m
  · intro k fk hk hfk
    by_cases hk2 : k < s'.program.functions.length
    · have hkfi : k ≠ fi := by omega
      rw [h2.others k hk2 hkfi] at hfk
      exact DoneFun_mono hpres2 (h1.newfuns k fk hk hfk)
    · exact h2.newfuns k fk (by omega) hfk

/-- After a `normalize_rhs`-style step the current block is still open. -/
theorem CurOpen.after {fi bi : Nat} {f f₁ : Function} {b b₁ : Block}
    {s s' : NormState} (hco : CurOpen s fi bi f b)
    (h1 : RhsPost fi bi f b s s')
    (hf₁ : s'.program.functions.get? fi = some f₁)
    (hb₁ : f₁.blocks.get? bi = some b₁) :
    CurOpen s' fi bi f₁ b₁ := by
  obtain ⟨_, _, hf, hnone, hb, hob⟩ := hco
  obtain ⟨f₁', b₁', tail₁, hgf₁', hname₁, hargs₁, hnone₁, _, _, _, hgb₁',
    hpar₁, hins₁, htail₁⟩ := h1.cur
  rw [hgf₁'] at hf₁
  injection hf₁ with hf₁
  subst hf₁
  rw [hgb₁'] at hb₁
  injection hb₁ with hb₁
  subst hb₁
  refine ⟨h1.cfi, h1.cbi, hgf₁', hnone₁, hgb₁', ?_⟩
  obtain ⟨mid, hmid, hall⟩ := hob
  refine ⟨mid ++ tail₁, by rw [hins₁, hmid]; simp, ?_⟩
  intro i hi
  rcases List.mem_append.mp hi with h1m | h2m
  · exact hall i h1m
  · exact (htail₁ i h2m).1

/-- The `normalize_var` wrapper: pass an atom through, or bind a step to
a fresh name with one emitted assignment. -/
theorem normalizeVarAux_wf {fi bi : Nat} {f : Function} {b : Block}
    {s s₁ s₂ : NormState} {d : Definition} {vr : VariableReference}
    (hco : CurOpen s fi bi f b)
    (h1 : RhsPost fi bi f b s s₁) (hd : DefOK s₁.program d)
    (h : normalizeVarAux (.ok (d, s₁)) = .ok (vr, s₂)) :
    RhsPost fi bi f b s s₂ := by
  obtain ⟨f₁, b₁, tail₁, hgf₁, _, _, hnone₁, _, _, _, hgb₁, _, hins₁,
    htail₁⟩ := h1.cur
  cases d with
  | var v =>
    simp only [normalizeVarAux] at h
    injection h with h
    injection h with h hstate
    rw [← hstate]
    exact h1
  | step st =>
    simp only [normalizeVarAux, freshName] at h
    set sc : NormState := { s₁ with var_counter := s₁.var_counter + 1 }
      with hsc
    set aname : Assignment :=
      ⟨"__gen" ++ "__" ++ toString s₁.var_counter, .step st⟩ with ha
    have hcfi : sc.current_function_index = some fi := h1.cfi
    have hcbi : sc.current_block_index = some bi := h1.cbi
    have hgfc : sc.program.functions.get? fi = some f₁ := hgf₁
    have heq := emit_eq sc fi bi f₁ b₁ (.assignment aname) hcfi hcbi hgfc hgb₁
    rw [heq] at h
    injection h with h
    injection h with h hstate
    rw [← hstate]
    have hpost2 := emit_assignment_post sc fi bi f₁ b₁ aname hcfi hcbi hgfc
      hnone₁ hgb₁ (by exact hd)
    have hco1 : CurOpen s₁ fi bi f₁ b₁ := CurOpen.after hco h1 hgf₁ hgb₁
    have hpostc : RhsPost fi bi f₁ b₁ s₁ sc :=
      RhsPost.of_programEq hco1 rfl h1.cfi h1.cbi
    exact RhsPost.comp hco.2.2.1 hco.2.2.2.2.1 h1 hgf₁ hgb₁
      (RhsPost.comp hgf₁ hgb₁ hpostc hgfc hgb₁ hpost2)

/-! ### The two halves of `normalize_block` -/

theorem PreservesDone.setFunction_cur {p : Program} {fi : Nat}
    {f₃ f₄ : Function} (hgf : p.functions.get? fi = some f₃)
    (hnone : f₃.free_names = none) :
    PreservesDone p (setFunction p fi f₄) := by
  intro k fk hk hne
  by_cases hkfi : k = fi
  · subst hkfi
    rw [hk] at hgf
    injection hgf with hgf
    rw [← hgf] at hnone
    simp [hnone] at hne
  · rw [setFunction_get_ne _ _ _ _ hkfi]
    exact hk

theorem InstrOK_enter (p : Program) : InstrOK p .enterBlock :=
  fun _ ha => nomatch ha

theorem InstrOK_exit (p : Program) (v : VariableReference) :
    InstrOK p (.exitBlock v) :=
  fun _ ha => nomatch ha

theorem listSet_append_length (l : List α) (x y : α) :
    (l ++ [x]).set l.length y = l ++ [y] := by
  induction l with
  | nil => simp
  | cons z zs ih => simp [ih]

theorem setFunction_setFunction (p : Program) (i : Nat) (f g : Function) :
    setFunction (setFunction p i f) i g = setFunction p i g := by
  simp [setFunction, List.set_set]

/-- `blockPre` pushes one block `[EnterBlock]` onto the current function
and points the block cursor at it. -/
theorem blockPre_eq (s : NormState) (fi : Nat) (f : Function)
    (hcfi : s.current_function_index = some fi)
    (hf : s.program.functions.get? fi = some f) :
    blockPre s = .ok ((fi, f.blocks.length, s.current_block_index),
      { program := setFunction s.program fi { f with blocks := f.blocks ++ [{ instructions := [.enterBlock], parent_block_index := s.current_block_index }] }
        current_function_index := some fi
        current_block_index := some f.blocks.length
        var_counter := s.var_counter
        var_substitution := s.var_substitution }) := by
  have hfl : fi < s.program.functions.length := listGet?_lt_length hf
  have hemit := emit_eq
    { program := setFunction s.program fi { f with blocks := f.blocks ++ [{ instructions := [], parent_block_index := s.current_block_index }] }
      current_function_index := some fi
      current_block_index := some f.blocks.length
      var_counter := s.var_counter
      var_substitution := s.var_substitution }
    fi f.blocks.length
    { f with blocks := f.blocks ++ [{ instructions := [], parent_block_index := s.current_block_index }] }
    { instructions := [], parent_block_index := s.current_block_index }
    .enterBlock rfl rfl
    (setFunction_get_self _ _ _ hfl) (listGet?_append_length _ _)
  simp only [blockPre, hcfi, hf]
  rw [hemit]
  simp [setFunction_setFunction, listSet_append_length]

theorem blockPre_wf (s : NormState) (fi : Nat) (f : Function)
    (hcfi : s.current_function_index = some fi)
    (hf : s.program.functions.get? fi = some f) :
    ∃ s₂ f₂,
      blockPre s = .ok ((fi, f.blocks.length, s.current_block_index), s₂) ∧
      s₂.current_function_index = some fi ∧
      s₂.current_block_index = some f.blocks.length ∧
      s₂.program.functions.length = s.program.functions.length ∧
      (∀ k, k ≠ fi →
        s₂.program.functions.get? k = s.program.functions.get? k) ∧
      s₂.program.functions.get? fi = some f₂ ∧
      f₂.name = f.name ∧ f₂.arg_names = f.arg_names ∧
      f₂.free_names = f.free_names ∧
      f₂.blocks.length = f.blocks.length + 1 ∧
      (∀ l, l < f.blocks.length → f₂.blocks.get? l = f.blocks.get? l) ∧
      f₂.blocks.get? f.blocks.length = some { instructions := [.enterBlock], parent_block_index := s.current_block_index } := by
  have hfl : fi < s.program.functions.length := listGet?_lt_length hf
  refine ⟨_, { f with blocks := f.blocks ++ [{ instructions := [.enterBlock], parent_block_index := s.current_block_index }] },
    blockPre_eq s fi f hcfi hf, rfl, rfl, by simp [setFunction_length],
    fun k hk => setFunction_get_ne _ _ _ _ hk,
    setFunction_get_self _ _ _ hfl, rfl, rfl, rfl, by simp,
    fun l hl => listGet?_append_left _ _ _ hl, listGet?_append_length _ _⟩

/-- A finished `normalize_block` seen from an enclosing open block. -/
theorem RhsPost.of_blockPost {fi bi : Nat} {f : Function} {b : Block}
    {s s₁ : NormState} {addr : TargetAddress} (hco : CurOpen s fi bi f b)
    (hbp : BlockPost fi f s s₁ addr) : RhsPost fi bi f b s s₁ := by
  obtain ⟨hcfi, hcbi, hf, hnone, hb, hob⟩ := hco
  obtain ⟨f₁, hgf₁, hname₁, hargs₁, hnone₁, hblen₁, hold₁, hnew₁⟩ := hbp.cur
  have hbi_lt : bi < f.blocks.length := listGet?_lt_length hb
  constructor
  · exact hbp.cfi
  · rw [hbp.cbi]; exact hcbi
  · exact hbp.len
  · exact hbp.others
  · refine ⟨f₁, b, [], hgf₁, hname₁, hargs₁, hnone₁, le_of_lt hblen₁,
      fun l hl _ => hold₁ l hl, hnew₁, ?_, rfl, by simp, by simp⟩
    rw [hold₁ bi hbi_lt]
    exact hb
  · exact hbp.newfuns

theorem normalizeBlock_wf_of (e : Expr)
    (IH : ∀ s fi bi f b d s₁, CurOpen s fi bi f b →
      normalizeRhs e s = .ok (d, s₁) →
      RhsPost fi bi f b s s₁ ∧ DefOK s₁.program d)
    (s : NormState) (fi : Nat) (f : Function)
    (hcfi : s.current_function_index = some fi)
    (hf : s.program.functions.get? fi = some f) (hnone : f.free_names = none)
    (addr : TargetAddress) (s₁ : NormState)
    (h : normalizeBlock e s = .ok (addr, s₁)) :
    BlockPost fi f s s₁ addr := by
  obtain ⟨s₂, f₂, hpre, hcfi₂, hcbi₂, hlen₂, hothers₂, hgf₂, hname₂, hargs₂,
    hfn₂, hblen₂, hold₂, hnb₂⟩ := blockPre_wf s fi f hcfi hf
  simp only [normalizeBlock, hpre] at h
  set nb : Block :=
    { instructions := [.enterBlock],
      parent_block_index := s.current_block_index } with hnb
  have hnone₂ : f₂.free_names = none := by rw [hfn₂]; exact hnone
  have hco₂ : CurOpen s₂ fi f.blocks.length f₂ nb :=
    ⟨hcfi₂, hcbi₂, hgf₂, hnone₂, hnb₂, ⟨[], rfl, by simp⟩⟩
  rcases hrhs : normalizeRhs e s₂ with msg | ⟨d, sR⟩
  · simp only [normalizeVar, hrhs, normalizeVarAux, blockPost] at h
    exact Except.noConfusion h
  · obtain ⟨hpost, hdef⟩ := IH s₂ fi f.blocks.length f₂ nb d sR hco₂ hrhs
    rcases haux : normalizeVarAux (.ok (d, sR)) with msg | ⟨vr, s₃⟩
    · simp only [normalizeVar, hrhs, haux, blockPost] at h
      exact Except.noConfusion h
    · simp only [normalizeVar, hrhs, haux, blockPost] at h
      have hpost₃ : RhsPost fi f.blocks.length f₂ nb s₂ s₃ :=
        normalizeVarAux_wf hco₂ hpost hdef haux
      obtain ⟨f₃, b₃, tail₃, hgf₃, hname₃, hargs₃, hnone₃, hblen₃, hold₃,
        hnew₃, hgb₃, hpar₃, hins₃, htail₃⟩ := hpost₃.cur
      have hemit := emit_eq s₃ fi f.blocks.length f₃ b₃ (.exitBlock vr)
        hpost₃.cfi hpost₃.cbi hgf₃ hgb₃
      rw [hemit] at h
      injection h with h
      injection h with haddr hstate
      set f₄ : Function := { f₃ with blocks := f₃.blocks.set f.blocks.length { b₃ with instructions := b₃.instructions ++ [.exitBlock vr] } } with hf₄
      subst hstate
      have hfl0 : fi < s.program.functions.length := listGet?_lt_length hf
      have hfi₃ : fi < s₃.program.functions.length := listGet?_lt_length hgf₃
      have hpres : PreservesDone s₃.program (setFunction s₃.program fi f₄) :=
        PreservesDone.setFunction_cur hgf₃ hnone₃
      have hlen₃ : s.program.functions.length ≤ s₃.program.functions.length := by
        rw [← hlen₂]; exact hpost₃.len
      constructor
      · exact haddr.symm
      · exact hpost₃.cfi
      · rfl
      · show s.program.functions.length ≤
          (setFunction s₃.program fi f₄).functions.length
        simp only [setFunction_length]
        exact hlen₃
      · intro k hk hkfi
        show (setFunction s₃.program fi f₄).functions.get? k = _
        rw [setFunction_get_ne _ _ _ _ hkfi,
          hpost₃.others k (by rw [hlen₂]; exact hk) hkfi]
        exact hothers₂ k hkfi
      · refine ⟨f₄, ?_, ?_, ?_, hnone₃, ?_, ?_, ?_⟩
        · show (setFunction s₃.program fi f₄).functions.get? fi = some f₄
          exact setFunction_get_self _ _ _ hfi₃
        · rw [hname₃, hname₂]
        · rw [hargs₃, hargs₂]
        · show f.blocks.length < f₄.blocks.length
          simp only [hf₄, List.length_set]
          omega
        · intro l hl
          show f₄.blocks.get? l = f.blocks.get? l
          simp only [hf₄]
          rw [listGet?_set_ne _ _ _ _ (by omega)]
          rw [hold₃ l (by omega) (by omega)]
          exact hold₂ l hl
        · intro l bl hl hbl
          by_cases hlb : l = f.blocks.length
          · subst hlb
            simp only [hf₄] at hbl
            rw [listGet?_set_eq _ _ _ (by omega)] at hbl
            injection hbl with hbl
            rw [← hbl]
            constructor
            · refine ⟨tail₃, vr, ?_, ?_⟩
              · show b₃.instructions ++ [.exitBlock vr] = _
                rw [hins₃]
                simp
              · intro i hi
                exact (htail₃ i hi).1
            · intro i hi
              simp only [] at hi
              rw [hins₃] at hi
              rcases List.mem_append.mp hi with h1m | h2m
              · rcases List.mem_append.mp h1m with h0m | h1m'
                · rcases List.mem_singleton.mp h0m with rfl
                  exact InstrOK_enter _
                · exact InstrOK_mono hpres ((htail₃ i h1m').2)
              · rcases List.mem_singleton.mp h2m with rfl
                exact InstrOK_exit _ _
          · have hl₂ : f₂.blocks.length ≤ l := by omega
            simp only [hf₄] at hbl
            rw [listGet?_set_ne _ _ _ _ (fun hc => hlb hc)] at hbl
            obtain ⟨hc, hio⟩ := hnew₃ l bl hl₂ hbl
            exact ⟨hc, fun i hi => InstrOK_mono hpres (hio i hi)⟩
      · intro k fk hk hfk
        have hfk' : (setFunction s₃.program fi f₄).functions.get? k =
            some fk := hfk
        rw [setFunction_get_ne _ _ _ _ (by omega)] at hfk'
        exact DoneFun_mono hpres
          (hpost₃.newfuns k fk (by rw [hlen₂]; exact hk) hfk')

theorem normalizeFunctionBody_wf_of (e : Expr)
    (IH : ∀ s fi bi f b d s₁, CurOpen s fi bi f b →
      normalizeRhs e s = .ok (d, s₁) →
      RhsPost fi bi f b s s₁ ∧ DefOK s₁.program d)
    (name : String) (args : List String) (s : NormState)
    (ac : AllocClosure) (s₁ : NormState)
    (h : normalizeFunctionBody name args e s = .ok (ac, s₁)) :
    FunBodyPost s s₁ ac := by
  simp only [normalizeFunctionBody, funBodyPre] at h
  set n := s.program.functions.length with hn
  set newfn : Function :=
    { name := name, arg_names := args, free_names := none, blocks := [] }
    with hnewfn
  set s₂ : NormState :=
    { program := { functions := s.program.functions ++ [newfn] }
      current_function_index := some n
      current_block_index := none
      var_counter := s.var_counter
      var_substitution := s.var_substitution } with hs₂
  rcases hnb : normalizeBlock e s₂ with msg | ⟨addr, s₃⟩
  · rw [hnb] at h
    simp only [funBodyPost] at h
    exact Except.noConfusion h
  · have hgn : s₂.program.functions.get? n = some newfn :=
      listGet?_append_length _ _
    have hbp := normalizeBlock_wf_of e IH s₂ n newfn rfl hgn rfl addr s₃ hnb
    have haddr := hbp.addr_eq
    subst haddr
    rw [hnb] at h
    obtain ⟨f₃, hgf₃, hname₃, hargs₃, hnone₃, hblen₃, hold₃, hnew₃⟩ := hbp.cur
    simp only [funBodyPost, getFunction?, hgf₃] at h
    injection h with h
    injection h with hac hstate
    subst hstate
    subst hac
    have hlen₂ : s₂.program.functions.length = n + 1 := by
      simp [hs₂]
    have hn₃ : n < s₃.program.functions.length := by
      have := hbp.len
      omega
    have hpres : PreservesDone s₃.program (setFunction s₃.program n
        { f₃ with free_names := some (freeVarsFunction f₃.blocks name args newfn.blocks.length) }) :=
      PreservesDone.setFunction_cur hgf₃ hnone₃
    have hfvzero : newfn.blocks.length = (0 : Nat) := rfl
    constructor
    · rfl
    · rfl
    · show n < (setFunction s₃.program n _).functions.length
      simp only [setFunction_length]
      exact hn₃
    · intro k hk
      show (setFunction s₃.program n _).functions.get? k = _
      rw [setFunction_get_ne _ _ _ _ (by omega)]
      rw [hbp.others k (by omega) (by omega)]
      exact listGet?_append_left _ _ _ hk
    · intro k fk hk hfk
      have hfk' : (setFunction s₃.program n { f₃ with free_names := some (freeVarsFunction f₃.blocks name args newfn.blocks.length) }).functions.get? k = some fk := hfk
      by_cases hkn : k = n
      · subst hkn
        rw [setFunction_get_self _ _ _ hn₃] at hfk'
        injection hfk' with hfk'
        subst hfk'
        constructor
        · show some _ = some _
          congr 1
          show freeVarsFunction f₃.blocks name args newfn.blocks.length = _
          rw [hfvzero]
          congr 1
          · rw [hname₃]
          · rw [hargs₃]
        · intro b hb
          obtain ⟨l, hl⟩ := List.mem_iff_get?.mp hb
          have hcl := hnew₃ l b (by omega) hl
          exact ⟨hcl.1, fun i hi => InstrOK_mono hpres (hcl.2 i hi)⟩
      · rw [setFunction_get_ne _ _ _ _ hkn] at hfk'
        exact DoneFun_mono hpres
          (hbp.newfuns k fk (by omega) hfk')
    · refine ⟨{ f₃ with free_names := some (freeVarsFunction f₃.blocks name args newfn.blocks.length) }, ?_, rfl, ?_, ?_, rfl, rfl⟩
      · show (setFunction s₃.program n _).functions.get? n = some _
        exact setFunction_get_self _ _ _ hn₃
      · show f₃.name = name
        rw [hname₃]
      · show f₃.arg_names = args
        rw [hargs₃]
    · rfl

/-- Package the data needed to continue reasoning from the state a
`normalize_rhs` step left behind. -/
theorem CurOpen.next {fi bi : Nat} {f : Function} {b : Block}
    {s s₂ : NormState} (hco : CurOpen s fi bi f b)
    (h1 : RhsPost fi bi f b s s₂) :
    ∃ f₂ b₂, CurOpen s₂ fi bi f₂ b₂ ∧
      s₂.program.functions.get? fi = some f₂ ∧
      f₂.blocks.get? bi = some b₂ ∧
      ∀ sT, RhsPost fi bi f₂ b₂ s₂ sT → RhsPost fi bi f b s sT := by
  obtain ⟨f₂, b₂, tail₂, hgf₂, _, _, _, _, _, _, hgb₂, _, _, _⟩ := h1.cur
  exact ⟨f₂, b₂, CurOpen.after hco h1 hgf₂ hgb₂, hgf₂, hgb₂, fun sT h2 =>
    RhsPost.comp hco.2.2.1 hco.2.2.2.2.1 h1 hgf₂ hgb₂ h2⟩

/-- A nested `normalize_function_body`, bracketed by program-preserving
renaming and substitution bookkeeping, satisfies the `normalize_rhs`
postcondition and yields a well-formed closure record. -/
theorem RhsPost.of_funBody {fi bi : Nat} {f : Function} {b : Block}
    {s s₃ s₆ s₁ : NormState} {ac : AllocClosure}
    (hco : CurOpen s fi bi f b)
    (hprog₃ : s₃.program = s.program)
    (hcfi₃ : s₃.current_function_index = s.current_function_index)
    (hcbi₃ : s₃.current_block_index = s.current_block_index)
    (hfb : FunBodyPost s₃ s₆ ac)
    (hprog₁ : s₁.program = s₆.program)
    (hcfi₁ : s₁.current_function_index = s₆.current_function_index)
    (hcbi₁ : s₁.current_block_index = s₆.current_block_index) :
    RhsPost fi bi f b s s₁ ∧ ClosOK s₁.program ac := by
  obtain ⟨hcfi, hcbi, hf, hnone, hb, hob⟩ := hco
  have hfl : fi < s.program.functions.length := listGet?_lt_length hf
  have hlen3 : s₃.program.functions.length = s.program.functions.length := by
    rw [hprog₃]
  have hlen6 := hfb.len
  constructor
  · refine ⟨?_, ?_, ?_, ?_, ?_, ?_⟩
    · rw [hcfi₁, hfb.cfi, hcfi₃]
      exact hcfi
    · rw [hcbi₁, hfb.cbi, hcbi₃]
      exact hcbi
    · rw [hprog₁]
      omega
    · intro k hk hkfi
      rw [hprog₁, hfb.olds k (by omega), hprog₃]
    · refine ⟨f, b, [], ?_, rfl, rfl, hnone, le_refl _, fun l _ _ => rfl,
        ?_, hb, rfl, by simp, by simp⟩
      · rw [hprog₁, hfb.olds fi (by omega), hprog₃]
        exact hf
      · intro l bl hl hbl
        rw [listGet?_ge_none _ _ hl] at hbl
        cases hbl
    · intro k fk hk hfk
      rw [hprog₁] at hfk
      have hdf := hfb.newfuns k fk (by omega) hfk
      rw [hprog₁]
      exact hdf
  · rw [hprog₁]
    exact hfb.clos

/-! ### The mutual induction: `normalize_rhs` and argument lists -/

mutual

/-- Main induction: a successful `normalize_rhs` satisfies `RhsPost`
relative to any open current block, and the produced definition is
well formed (its closures, if any, agree with their lifted functions). -/
theorem normalizeRhs_wf (e : Expr) :
    ∀ s fi bi f b d s₁, CurOpen s fi bi f b →
      normalizeRhs e s = .ok (d, s₁) →
      RhsPost fi bi f b s s₁ ∧ DefOK s₁.program d := by
  intro s fi bi f b d s₁ hco h
  cases e with
  | literal c =>
    simp only [normalizeRhs] at h
    injection h with h
    injection h with hd hstate
    subst hstate
    subst hd
    refine ⟨RhsPost.of_programEq hco rfl hco.1 hco.2.1, ?_⟩
    intro ac hac
    simp at hac
  | var vname =>
    simp only [normalizeRhs] at h
    rcases hlk : mapLookup s.var_substitution vname with _ | sn
    · rw [hlk] at h
      exact Except.noConfusion h
    · rw [hlk] at h
      dsimp only at h
      injection h with h
      injection h with hd hstate
      subst hstate
      subst hd
      refine ⟨RhsPost.of_programEq hco rfl hco.1 hco.2.1, ?_⟩
      intro ac hac
      simp at hac
  | fun_ fname fargs fbody =>
    simp only [normalizeRhs] at h
    rcases hfn : freshName fname s with ⟨uname, sA⟩
    rw [hfn] at h
    dsimp only at h
    rcases hfa : freshArgs fargs sA with ⟨⟨subs, uargs⟩, sB⟩
    rw [hfa] at h
    dsimp only at h
    rcases hsa : substSaveInsertAll (subs ++ [(fname, uname)]) sB with ⟨saves, sC⟩
    rw [hsa] at h
    dsimp only at h
    rcases hfbpre : funBodyPre uname uargs sC with ⟨⟨new_fi, old_fi, old_bi⟩, sD⟩
    rw [hfbpre] at h
    dsimp only at h
    rcases hbpre : blockPre sD with msg | ⟨⟨bfi, nbi, obi⟩, sE⟩
    · rw [hbpre] at h
      exact Except.noConfusion h
    rw [hbpre] at h
    dsimp only at h
    rcases hfbp : funBodyPost uname uargs new_fi old_fi old_bi
        (blockPost bfi nbi obi (normalizeVarAux (normalizeRhs fbody sE))) with
      msg | ⟨func, sF⟩
    · rw [hfbp] at h
      exact Except.noConfusion h
    rw [hfbp] at h
    dsimp only at h
    injection h with h
    injection h with hd hstate
    have hnfb : normalizeFunctionBody uname uargs fbody sC = .ok (func, sF) := by
      simp only [normalizeFunctionBody]
      rw [hfbpre]
      dsimp only
      simp only [normalizeBlock, normalizeVar]
      rw [hbpre]
      exact hfbp
    have hpost := normalizeFunctionBody_wf_of fbody
      (fun s' fi' bi' f' b' d' s₁' hco' hh' =>
        normalizeRhs_wf fbody s' fi' bi' f' b' d' s₁' hco' hh')
      uname uargs sC func sF hnfb
    have hstA := freshName_state fname s
    rw [hfn] at hstA
    have hAp : sA.program = s.program := hstA.1
    have hAfi : sA.current_function_index = s.current_function_index := hstA.2.1
    have hAbi : sA.current_block_index = s.current_block_index := hstA.2.2.1
    have hstB := freshArgs_state fargs sA
    rw [hfa] at hstB
    have hBp : sB.program = sA.program := hstB.1
    have hBfi : sB.current_function_index = sA.current_function_index := hstB.2.1
    have hBbi : sB.current_block_index = sA.current_block_index := hstB.2.2
    have hstC := substSaveInsertAll_state (subs ++ [(fname, uname)]) sB
    rw [hsa] at hstC
    have hCp : sC.program = sB.program := hstC.1
    have hCfi : sC.current_function_index = sB.current_function_index := hstC.2.1
    have hCbi : sC.current_block_index = sB.current_block_index := hstC.2.2
    have hstG := substRestoreAll_state saves sF
    rw [hstate] at hstG
    have hGp : s₁.program = sF.program := hstG.1
    have hGfi : s₁.current_function_index = sF.current_function_index := hstG.2.1
    have hGbi : s₁.current_block_index = sF.current_block_index := hstG.2.2
    obtain ⟨hrp, hclos⟩ := RhsPost.of_funBody hco
      (by rw [hCp, hBp, hAp]) (by rw [hCfi, hBfi, hAfi])
      (by rw [hCbi, hBbi, hAbi]) hpost hGp hGfi hGbi
    subst hd
    refine ⟨hrp, ?_⟩
    intro ac hac
    injection hac with hac
    injection hac with hac
    injection hac with hac
    rw [← hac]
    exact hclos
  | call cfunc cargs =>
    simp only [normalizeRhs] at h
    rcases h1 : normalizeRhs cfunc s with msg | ⟨d₁, sA⟩
    · rw [h1] at h
      simp only [normalizeVarAux] at h
      exact Except.noConfusion h
    rw [h1] at h
    obtain ⟨hp1, hd1⟩ := normalizeRhs_wf cfunc s fi bi f b d₁ sA hco h1
    rcases ha1 : normalizeVarAux (.ok (d₁, sA)) with msg | ⟨fun_at, sB⟩
    · rw [ha1] at h
      exact Except.noConfusion h
    rw [ha1] at h
    dsimp only at h
    have hpB : RhsPost fi bi f b s sB := normalizeVarAux_wf hco hp1 hd1 ha1
    obtain ⟨f₁, b₁, hcoB, hgfB, hgbB, htrB⟩ := CurOpen.next hco hpB
    rcases h2 : normalizeVarList cargs sB with msg | ⟨args_at, sC⟩
    · rw [h2] at h
      exact Except.noConfusion h
    rw [h2] at h
    dsimp only at h
    have hpC : RhsPost fi bi f₁ b₁ sB sC :=
      normalizeVarList_wf cargs sB fi bi f₁ b₁ args_at sC hcoB h2
    injection h with h
    injection h with hd hstate
    subst hstate
    subst hd
    refine ⟨htrB _ hpC, ?_⟩
    intro ac hac
    simp at hac
  | binop op blhs brhs =>
    simp only [normalizeRhs] at h
    rcases h1 : normalizeRhs blhs s with msg | ⟨d₁, sA⟩
    · rw [h1] at h
      simp only [normalizeVarAux] at h
      exact Except.noConfusion h
    rw [h1] at h
    obtain ⟨hp1, hd1⟩ := normalizeRhs_wf blhs s fi bi f b d₁ sA hco h1
    rcases ha1 : normalizeVarAux (.ok (d₁, sA)) with msg | ⟨lhs_at, sB⟩
    · rw [ha1] at h
      exact Except.noConfusion h
    rw [ha1] at h
    dsimp only at h
    have hpB : RhsPost fi bi f b s sB := normalizeVarAux_wf hco hp1 hd1 ha1
    obtain ⟨f₁, b₁, hcoB, hgfB, hgbB, htrB⟩ := CurOpen.next hco hpB
    rcases h2 : normalizeRhs brhs sB with msg | ⟨d₂, sC⟩
    · rw [h2] at h
      simp only [normalizeVarAux] at h
      exact Except.noConfusion h
    rw [h2] at h
    obtain ⟨hp2, hd2⟩ := normalizeRhs_wf brhs sB fi bi f₁ b₁ d₂ sC hcoB h2
    rcases ha2 : normalizeVarAux (.ok (d₂, sC)) with msg | ⟨rhs_at, sD⟩
    · rw [ha2] at h
      exact Except.noConfusion h
    rw [ha2] at h
    dsimp only at h
    have hpD : RhsPost fi bi f₁ b₁ sB sD := normalizeVarAux_wf hcoB hp2 hd2 ha2
    injection h with h
    injection h with hd hstate
    subst hstate
    subst hd
    refine ⟨htrB _ hpD, ?_⟩
    intro ac hac
    simp at hac
  | let_ lname ldef lbody =>
    simp only [normalizeRhs] at h
    rcases h1 : normalizeRhs ldef s with msg | ⟨def_c, sA⟩
    · rw [h1] at h
      exact Except.noConfusion h
    rw [h1] at h
    dsimp only at h
    obtain ⟨hp1, hd1⟩ := normalizeRhs_wf ldef s fi bi f b def_c sA hco h1
    obtain ⟨f₁, b₁, hcoA, hgfA, hgbA, htrA⟩ := CurOpen.next hco hp1
    rcases hfn : freshName lname sA with ⟨uname, sB⟩
    rw [hfn] at h
    dsimp only at h
    have hstB := freshName_state lname sA
    rw [hfn] at hstB
    have hBp : sB.program = sA.program := hstB.1
    have hBfi : sB.current_function_index = sA.current_function_index := hstB.2.1
    have hBbi : sB.current_block_index = sA.current_block_index := hstB.2.2.1
    have hpB : RhsPost fi bi f₁ b₁ sA sB :=
      RhsPost.of_programEq hcoA hBp (by rw [hBfi]; exact hcoA.1)
        (by rw [hBbi]; exact hcoA.2.1)
    obtain ⟨f₂, b₂, hcoB, hgfB, hgbB, htrB⟩ := CurOpen.next hcoA hpB
    have hemeq := emit_eq sB fi bi f₂ b₂
      (.assignment { name := uname, definition := def_c })
      hcoB.1 hcoB.2.1 hgfB hcoB.2.2.2.2.1
    rcases hem : emit (.assignment { name := uname, definition := def_c }) sB
      with msg | sC
    · rw [hemeq] at hem
      exact Except.noConfusion hem
    rw [hem] at h
    dsimp only at h
    rw [hemeq] at hem
    injection hem with hsC
    have hpostC := emit_assignment_post sB fi bi f₂ b₂
      { name := uname, definition := def_c }
      hcoB.1 hcoB.2.1 hgfB hcoB.2.2.2.1 hcoB.2.2.2.2.1
      (by rw [hBp]; exact hd1)
    rw [hsC] at hpostC
    obtain ⟨f₃, b₃, hcoC, hgfC, hgbC, htrC⟩ := CurOpen.next hcoB hpostC
    rcases hsv : substSaveInsert lname uname sC with ⟨old, sD⟩
    rw [hsv] at h
    dsimp only at h
    have hstD := substSaveInsert_state lname uname sC
    rw [hsv] at hstD
    have hDp : sD.program = sC.program := hstD.1
    have hDfi : sD.current_function_index = sC.current_function_index := hstD.2.1
    have hDbi : sD.current_block_index = sC.current_block_index := hstD.2.2
    have hpD : RhsPost fi bi f₃ b₃ sC sD :=
      RhsPost.of_programEq hcoC hDp (by rw [hDfi]; exact hcoC.1)
        (by rw [hDbi]; exact hcoC.2.1)
    obtain ⟨f₄, b₄, hcoD, hgfD, hgbD, htrD⟩ := CurOpen.next hcoC hpD
    rcases h2 : normalizeRhs lbody sD with msg | ⟨result, sE⟩
    · rw [h2] at h
      exact Except.noConfusion h
    rw [h2] at h
    dsimp only at h
    obtain ⟨hpE, hdE⟩ := normalizeRhs_wf lbody sD fi bi f₄ b₄ result sE hcoD h2
    obtain ⟨f₅, b₅, hcoE, hgfE, hgbE, htrE⟩ := CurOpen.next hcoD hpE
    injection h with h
    injection h with hd hstate
    have hstF := substRestore_state lname old sE
    rw [hstate] at hstF
    have hFp : s₁.program = sE.program := hstF.1
    have hFfi : s₁.current_function_index = sE.current_function_index := hstF.2.1
    have hFbi : s₁.current_block_index = sE.current_block_index := hstF.2.2
    have hpF : RhsPost fi bi f₅ b₅ sE s₁ :=
      RhsPost.of_programEq hcoE hFp (by rw [hFfi]; exact hcoE.1)
        (by rw [hFbi]; exact hcoE.2.1)
    subst hd
    refine ⟨htrA _ (htrB _ (htrC _ (htrD _ (htrE _ hpF)))), ?_⟩
    rw [hFp]
    exact hdE
  | if_ icond isucc ifail =>
    simp only [normalizeRhs] at h
    rcases h1 : normalizeRhs icond s with msg | ⟨d₁, sA⟩
    · rw [h1] at h
      simp only [normalizeVarAux] at h
      exact Except.noConfusion h
    rw [h1] at h
    obtain ⟨hp1, hd1⟩ := normalizeRhs_wf icond s fi bi f b d₁ sA hco h1
    rcases ha1 : normalizeVarAux (.ok (d₁, sA)) with msg | ⟨cond_at, sB⟩
    · rw [ha1] at h
      exact Except.noConfusion h
    rw [ha1] at h
    dsimp only at h
    have hpB : RhsPost fi bi f b s sB := normalizeVarAux_wf hco hp1 hd1 ha1
    obtain ⟨f₁, b₁, hcoB, hgfB, hgbB, htrB⟩ := CurOpen.next hco hpB
    rcases hbp1 : blockPre sB with msg | ⟨⟨fi1, nbi1, obi1⟩, sC⟩
    · rw [hbp1] at h
      exact Except.noConfusion h
    rw [hbp1] at h
    dsimp only at h
    rcases hpost1 : blockPost fi1 nbi1 obi1
        (normalizeVarAux (normalizeRhs isucc sC)) with msg | ⟨success_addr, sD⟩
    · rw [hpost1] at h
      exact Except.noConfusion h
    rw [hpost1] at h
    dsimp only at h
    have hnb1 : normalizeBlock isucc sB = .ok (success_addr, sD) := by
      simp only [normalizeBlock, normalizeVar]
      rw [hbp1]
      exact hpost1
    have hbpost1 := normalizeBlock_wf_of isucc
      (fun s' fi' bi' f' b' d' s₁' hco' hh' =>
        normalizeRhs_wf isucc s' fi' bi' f' b' d' s₁' hco' hh')
      sB fi f₁ hcoB.1 hgfB hcoB.2.2.2.1 success_addr sD hnb1
    have hpD : RhsPost fi bi f₁ b₁ sB sD := RhsPost.of_blockPost hcoB hbpost1
    obtain ⟨f₂, b₂, hcoD, hgfD, hgbD, htrD⟩ := CurOpen.next hcoB hpD
    rcases hbp2 : blockPre sD with msg | ⟨⟨fi2, nbi2, obi2⟩, sE⟩
    · rw [hbp2] at h
      exact Except.noConfusion h
    rw [hbp2] at h
    dsimp only at h
    rcases hpost2 : blockPost fi2 nbi2 obi2
        (normalizeVarAux (normalizeRhs ifail sE)) with msg | ⟨failure_addr, sF⟩
    · rw [hpost2] at h
      exact Except.noConfusion h
    rw [hpost2] at h
    dsimp only at h
    have hnb2 : normalizeBlock ifail sD = .ok (failure_addr, sF) := by
      simp only [normalizeBlock, normalizeVar]
      rw [hbp2]
      exact hpost2
    have hbpost2 := normalizeBlock_wf_of ifail
      (fun s' fi' bi' f' b' d' s₁' hco' hh' =>
        normalizeRhs_wf ifail s' fi' bi' f' b' d' s₁' hco' hh')
      sD fi f₂ hcoD.1 hgfD hcoD.2.2.2.1 failure_addr sF hnb2
    have hpF : RhsPost fi bi f₂ b₂ sD sF := RhsPost.of_blockPost hcoD hbpost2
    injection h with h
    injection h with hd hstate
    subst hstate
    subst hd
    refine ⟨htrB _ (htrD _ hpF), ?_⟩
    intro ac hac
    simp at hac
  | tuple tvals =>
    simp only [normalizeRhs] at h
    rcases h1 : normalizeVarList tvals s with msg | ⟨args_norm, sA⟩
    · rw [h1] at h
      exact Except.noConfusion h
    rw [h1] at h
    dsimp only at h
    have hpA : RhsPost fi bi f b s sA :=
      normalizeVarList_wf tvals s fi bi f b args_norm sA hco h1
    injection h with h
    injection h with hd hstate
    subst hstate
    subst hd
    refine ⟨hpA, ?_⟩
    intro ac hac
    simp at hac
  | set stup sidx snew =>
    simp only [normalizeRhs] at h
    rcases h1 : normalizeRhs stup s with msg | ⟨d₁, sA⟩
    · rw [h1] at h
      simp only [normalizeVarAux] at h
      exact Except.noConfusion h
    rw [h1] at h
    obtain ⟨hp1, hd1⟩ := normalizeRhs_wf stup s fi bi f b d₁ sA hco h1
    rcases ha1 : normalizeVarAux (.ok (d₁, sA)) with msg | ⟨tuple_at, sB⟩
    · rw [ha1] at h
      exact Except.noConfusion h
    rw [ha1] at h
    dsimp only at h
    have hpB : RhsPost fi bi f b s sB := normalizeVarAux_wf hco hp1 hd1 ha1
    obtain ⟨f₁, b₁, hcoB, hgfB, hgbB, htrB⟩ := CurOpen.next hco hpB
    rcases h2 : normalizeRhs snew sB with msg | ⟨d₂, sC⟩
    · rw [h2] at h
      simp only [normalizeVarAux] at h
      exact Except.noConfusion h
    rw [h2] at h
    obtain ⟨hp2, hd2⟩ := normalizeRhs_wf snew sB fi bi f₁ b₁ d₂ sC hcoB h2
    rcases ha2 : normalizeVarAux (.ok (d₂, sC)) with msg | ⟨new_at, sD⟩
    · rw [ha2] at h
      exact Except.noConfusion h
    rw [ha2] at h
    dsimp only at h
    have hpD : RhsPost fi bi f₁ b₁ sB sD := normalizeVarAux_wf hcoB hp2 hd2 ha2
    injection h with h
    injection h with hd hstate
    subst hstate
    subst hd
    refine ⟨htrB _ hpD, ?_⟩
    intro ac hac
    simp at hac
termination_by structural e

/-- Argument-list induction for the `Call` and `Tuple` loops. -/
theorem normalizeVarList_wf (es : List Expr) :
    ∀ s fi bi f b vs s₁, CurOpen s fi bi f b →
      normalizeVarList es s = .ok (vs, s₁) →
      RhsPost fi bi f b s s₁ := by
  intro s fi bi f b vs s₁ hco h
  cases es with
  | nil =>
    simp only [normalizeVarList] at h
    injection h with h
    injection h with hvs hstate
    subst hstate
    exact RhsPost.of_programEq hco rfl hco.1 hco.2.1
  | cons e rest =>
    simp only [normalizeVarList] at h
    rcases h1 : normalizeRhs e s with msg | ⟨d₁, sA⟩
    · rw [h1] at h
      simp only [normalizeVarAux] at h
      exact Except.noConfusion h
    rw [h1] at h
    obtain ⟨hp1, hd1⟩ := normalizeRhs_wf e s fi bi f b d₁ sA hco h1
    rcases ha1 : normalizeVarAux (.ok (d₁, sA)) with msg | ⟨v₁, sB⟩
    · rw [ha1] at h
      exact Except.noConfusion h
    rw [ha1] at h
    dsimp only at h
    have hpB : RhsPost fi bi f b s sB := normalizeVarAux_wf hco hp1 hd1 ha1
    obtain ⟨f₁, b₁, hcoB, hgfB, hgbB, htrB⟩ := CurOpen.next hco hpB
    rcases h2 : normalizeVarList rest sB with msg | ⟨vrest, sC⟩
    · rw [h2] at h
      exact Except.noConfusion h
    rw [h2] at h
    dsimp only at h
    have hpC : RhsPost fi bi f₁ b₁ sB sC :=
      normalizeVarList_wf rest sB fi bi f₁ b₁ vrest sC hcoB h2
    injection h with h
    injection h with hvs hstate
    subst hstate
    exact htrB _ hpC
termination_by structural es

end
theorem letNormalize_done (e : Expr) (p : Program)
    (h : letNormalize e = .ok p) :
    ∀ f ∈ p.functions, DoneFun p f := by
  simp only [letNormalize] at h
  rcases hfb : normalizeFunctionBody "toplevel" [] e initialNormState with
    msg | ⟨ac, sF⟩
  · rw [hfb] at h
    exact Except.noConfusion h
  · rw [hfb] at h
    dsimp only at h
    injection h with h
    subst h
    have hpost := normalizeFunctionBody_wf_of e
      (fun s' fi' bi' f' b' d' s₁' hco' hh' =>
        normalizeRhs_wf e s' fi' bi' f' b' d' s₁' hco' hh')
      "toplevel" [] initialNormState ac sF hfb
    intro f hf
    obtain ⟨k, hk⟩ := List.mem_iff_get?.mp hf
    exact hpost.newfuns k f (Nat.zero_le k) hk

/-- **C4.** For every function lifted by the normalizer, the committed
`free_names` equals the reverse-walk free-variable analysis of its blocks
(run from entry block 0 with the function's own name and parameters
subtracted last), and every closure-allocation step found in any block
carries exactly the `free_names` committed to the function it points to,
with entry at block 0, instruction 0. -/
theorem letNormalize_free_names (e : Expr) (p : Program)
    (h : letNormalize e = .ok p) :
    ∀ f ∈ p.functions,
      f.free_names = some (freeVarsFunction f.blocks f.name f.arg_names 0) ∧
      ∀ b ∈ f.blocks, ∀ a, Instruction.assignment a ∈ b.instructions →
        ∀ ac, a.definition = .step (.simple (.fun_ ac)) →
          ∃ f', p.functions.get? ac.body.function_index = some f' ∧
            f'.free_names = some ac.free_names ∧ f'.name = ac.name ∧
            f'.arg_names = ac.arg_names ∧ ac.body.block_index = 0 ∧
            ac.body.instruction_index = 0 := by
  intro f hf
  have hdone := letNormalize_done e p h f hf
  refine ⟨hdone.1, ?_⟩
  intro b hb a ha ac hac
  have hio : InstrOK p (.assignment a) := (hdone.2 b hb).2 _ ha
  exact hio a rfl ac hac

/-- Witness: `C4` at the concrete program obtained from `Literal (Int 42)`. -/
theorem letNormalize_free_names_witness :
    (letNormalize (Expr.literal (.int 42)) = .ok lit42Program) ∧
    (∀ f ∈ lit42Program.functions,
      f.free_names = some (freeVarsFunction f.blocks f.name f.arg_names 0) ∧
      ∀ b ∈ f.blocks, ∀ a, Instruction.assignment a ∈ b.instructions →
        ∀ ac, a.definition = .step (.simple (.fun_ ac)) →
          ∃ f', lit42Program.functions.get? ac.body.function_index = some f' ∧
            f'.free_names = some ac.free_names ∧ f'.name = ac.name ∧
            f'.arg_names = ac.arg_names ∧ ac.body.block_index = 0 ∧
            ac.body.instruction_index = 0) :=
  ⟨by rfl,
   letNormalize_free_names (Expr.literal (.int 42)) lit42Program (by rfl)⟩

/-- **C5.** For every input expression accepted by `let_normalize` and
every block of every function of the resulting program, the first
instruction is `EnterBlock`, the last is `ExitBlock`, each of these occurs
exactly once in the block, and every other instruction is an
`Assignment`. -/
theorem letNormalize_block_shape (e : Expr) (p : Program)
    (h : letNormalize e = .ok p) :
    ∀ f ∈ p.functions, ∀ b ∈ f.blocks, ∃ mid v,
      b.instructions = .enterBlock :: (mid ++ [.exitBlock v]) ∧
      (∀ i ∈ mid, ∃ a, i = .assignment a) ∧
      b.instructions.countP isEnterBlock = 1 ∧
      b.instructions.countP isExitBlockInstr = 1 := by
  intro f hf b hb
  have hdone := letNormalize_done e p h f hf
  obtain ⟨hcl, _⟩ := hdone.2 b hb
  obtain ⟨mid, v, hins, hmid⟩ := hcl
  have hz1 : mid.countP isEnterBlock = 0 := by
    refine List.countP_eq_zero.mpr ?_
    intro i hi
    have hia := hmid i hi
    cases i with
    | assignment a => simp [isEnterBlock]
    | enterBlock => simp [isAssignmentInstr] at hia
    | exitBlock w => simp [isAssignmentInstr] at hia
  have hz2 : mid.countP isExitBlockInstr = 0 := by
    refine List.countP_eq_zero.mpr ?_
    intro i hi
    have hia := hmid i hi
    cases i with
    | assignment a => simp [isExitBlockInstr]
    | enterBlock => simp [isAssignmentInstr] at hia
    | exitBlock w => simp [isAssignmentInstr] at hia
  refine ⟨mid, v, hins, ?_, ?_, ?_⟩
  · intro i hi
    have hia := hmid i hi
    cases i with
    | assignment a => exact ⟨a, rfl⟩
    | enterBlock => simp [isAssignmentInstr] at hia
    | exitBlock w => simp [isAssignmentInstr] at hia
  · rw [hins]
    simp [List.countP_cons, List.countP_append, hz1, isEnterBlock,
      isExitBlockInstr]
  · rw [hins]
    simp [List.countP_cons, List.countP_append, hz2, isEnterBlock,
      isExitBlockInstr]

/-- Witness: `C5` at the concrete program obtained from `Literal (Int 42)`. -/
theorem letNormalize_block_shape_witness :
    (letNormalize (Expr.literal (.int 42)) = .ok lit42Program) ∧
    (∀ f ∈ lit42Program.functions, ∀ b ∈ f.blocks, ∃ mid v,
      b.instructions = .enterBlock :: (mid ++ [.exitBlock v]) ∧
      (∀ i ∈ mid, ∃ a, i = .assignment a) ∧
      b.instructions.countP isEnterBlock = 1 ∧
      b.instructions.countP isExitBlockInstr = 1) :=
  ⟨by rfl,
   letNormalize_block_shape (Expr.literal (.int 42)) lit42Program (by rfl)⟩

end Bailey
